import Mathlib

/-!
Shallow embedding of `src/index.ts` of `json-async-stringify`.

The source exports one function, `asyncStringify(value, replacer, space)`,
which awaits a recursive helper `transform(replacer, parent, key, val, visited)`
and then hands the fully transformed value to the built-in `JSON.stringify`
with the given `space` argument.

Modelling choices, all read off the source:
* JavaScript object identity is made explicit through a heap: a container is a
  `HeapObj` stored at an address (`Nat`), and a value (`JSVal`) refers to a
  container through `JSVal.ref`.  Cyclic and shared (diamond) structures are
  expressed by the heap.  A well-formed JS heap is finite, so the heap is a
  `List HeapObj` and an address is valid when it is in range.
* An object carrying a callable `toJSON` property (e.g. `Date`) is modelled as
  `HeapObj.hook r`, where `r` is the value its zero-argument `toJSON()` returns;
  such an object carries no other own enumerable properties in the model.
* `bigint` values are `JSVal.bigint`; the source throws
  `TypeError("Do not know how to serialize a BigInt")` on them, modelled as
  `JSError.bigIntError`.  The circular-structure
  `TypeError("Converting circular structure to JSON")` is `JSError.circularError`.
* The async replacer is awaited at every node before anything else happens, so
  the traversal is strictly sequential; its effect is a pure function
  `Replacer` from (this-binding, key, value) to the replaced value.  The
  this-binding is the parent container: the synthetic root holder
  `\x7b "": value \x7d` at the top call, and the replaced container itself for
  child calls (`Ctx`).
* The `WeakSet` named `visited` is a list of addresses threaded through the
  traversal in program order, including the `finally \x7b visited.delete(replaced) \x7d`
  on both the success and the failure path.
* A sparse (absent) array slot reads as `undefined` in the source loop
  `for (let i = 0; i < replaced.length; i++) replaced[i]`, so it is modelled
  as a `JSVal.undef` element.
* Recursion in the source is bounded only by the cycle check, so the embedding
  takes explicit fuel; `none` means the fuel ran out, which the development
  proves cannot happen once the fuel exceeds the heap size.
* The traversal also returns the trace of replacer invocations (`TEntry`),
  in invocation order, to let theorems speak about which calls happen and in
  which order.
-/

/-- A JavaScript value as seen by `transform`: primitives, `bigint`,
function references (opaque, identified by a number), and references to
heap-allocated containers. -/
inductive JSVal where
  | null
  | undef
  | bool (b : Bool)
  | num (n : Int)
  | str (s : String)
  | bigint (n : Int)
  | func (id : Nat)
  | ref (addr : Nat)
deriving DecidableEq, Repr

/-- A heap container: an array, a plain keyed object (own enumerable string
keys in enumeration order), or an object whose callable `toJSON` returns `r`. -/
inductive HeapObj where
  | arr (elems : List JSVal)
  | obj (fields : List (String × JSVal))
  | hook (r : JSVal)
deriving DecidableEq, Repr

/-- The heap: address `a` is valid when `a < heap.length`. -/
abbrev Heap := List HeapObj

/-- The `this` binding passed to the replacer: the synthetic root holder
`\x7b "": value \x7d` for the top-level call, or the parent container for a
recursive call. -/
inductive Ctx where
  | root (v : JSVal)
  | container (addr : Nat)
deriving DecidableEq, Repr

/-- The user-supplied async replacer, with the awaited result made pure:
arguments are the `this` binding, the key and the value. -/
abbrev Replacer := Ctx → String → JSVal → JSVal

/-- The two `TypeError`s the source can throw:
`"Do not know how to serialize a BigInt"` and
`"Converting circular structure to JSON"`. -/
inductive JSError where
  | bigIntError
  | circularError
deriving DecidableEq, Repr

/-- The result tree `transform` builds: rebuilt containers are fresh plain
trees (`arr`/`obj`); a `toJSON` hook result is inserted as-is, so a raw heap
reference (`ref`) and even a `bigint` can appear in the tree. -/
inductive RVal where
  | null
  | undef
  | bool (b : Bool)
  | num (n : Int)
  | str (s : String)
  | bigint (n : Int)
  | func (id : Nat)
  | ref (addr : Nat)
  | arr (elems : List RVal)
  | obj (fields : List (String × RVal))
deriving Repr

/-- Inject a JS value unchanged into the result-tree type. -/
def RVal.ofVal : JSVal → RVal
  | .null => .null
  | .undef => .undef
  | .bool b => .bool b
  | .num n => .num n
  | .str s => .str s
  | .bigint n => .bigint n
  | .func i => .func i
  | .ref a => .ref a

/-- One replacer invocation: the `this` binding, key and value it was called
with. -/
structure TEntry where
  ctx : Ctx
  key : String
  val : JSVal
deriving DecidableEq, Repr

/-- `WeakSet.delete`: remove the first occurrence of `a`. -/
def removeFirst (a : Nat) : List Nat → List Nat
  | [] => []
  | b :: bs => if a = b then bs else b :: removeFirst a bs

mutual

/-- The recursive helper `transform(replacer, parent, key, val, visited)` of
the source, with explicit fuel.  Returns the transformed value (or the thrown
error), the visited set as left by the call (the source's
`try/finally` discipline), and the trace of replacer invocations made. -/
def transform (heap : Heap) (replacer : Replacer) (fuel : Nat) (parent : Ctx)
    (key : String) (val : JSVal) (visited : List Nat) :
    Option (Except JSError RVal × List Nat × List TEntry) :=
  match fuel with
  | 0 => none
  | fuel + 1 =>
    -- const replaced = await replacer.call(parent, key, val);
    let entry : TEntry := ⟨parent, key, val⟩
    match replacer parent key val with
    -- if (typeof replaced === 'bigint') throw new TypeError(...);
    | .bigint _ => some (.error .bigIntError, visited, [entry])
    -- null, undefined, string, number, boolean, function: return replaced;
    | .null => some (.ok .null, visited, [entry])
    | .undef => some (.ok .undef, visited, [entry])
    | .bool b => some (.ok (.bool b), visited, [entry])
    | .num n => some (.ok (.num n), visited, [entry])
    | .str s => some (.ok (.str s), visited, [entry])
    | .func i => some (.ok (.func i), visited, [entry])
    -- typeof replaced === 'object'
    | .ref a =>
      match heap.get? a with
      | none => some (.ok (.ref a), visited, [entry])
      -- if (typeof replaced.toJSON === 'function') return replaced.toJSON();
      | some (.hook r) => some (.ok (RVal.ofVal r), visited, [entry])
      | some (.arr elems) =>
        -- if (visited.has(replaced)) throw new TypeError(...);
        if a ∈ visited then some (.error .circularError, visited, [entry])
        else
          -- visited.add(replaced); try { ... } finally { visited.delete(replaced); }
          match transformElems heap replacer fuel a elems 0 (a :: visited) with
          | none => none
          | some (.error e, v', tr) => some (.error e, removeFirst a v', entry :: tr)
          | some (.ok rs, v', tr) => some (.ok (.arr rs), removeFirst a v', entry :: tr)
      | some (.obj flds) =>
        if a ∈ visited then some (.error .circularError, visited, [entry])
        else
          match transformFields heap replacer fuel a flds (a :: visited) with
          | none => none
          | some (.error e, v', tr) => some (.error e, removeFirst a v', entry :: tr)
          | some (.ok rs, v', tr) => some (.ok (.obj rs), removeFirst a v', entry :: tr)
termination_by (fuel, 0, 0)

/-- The array loop of `transform`: `for (let i = 0; i < replaced.length; i++)`
with `idx` the index of the first remaining element.  Children run strictly in
index order, each awaited before the next starts; the first error aborts the
loop. -/
def transformElems (heap : Heap) (replacer : Replacer) (fuel : Nat) (a : Nat)
    (elems : List JSVal) (idx : Nat) (visited : List Nat) :
    Option (Except JSError (List RVal) × List Nat × List TEntry) :=
  match elems with
  | [] => some (.ok [], visited, [])
  | e :: es =>
    match transform heap replacer fuel (.container a) (toString idx) e visited with
    | none => none
    | some (.error err, v', tr) => some (.error err, v', tr)
    | some (.ok r, v', tr) =>
      match transformElems heap replacer fuel a es (idx + 1) v' with
      | none => none
      | some (.error err, v'', tr') => some (.error err, v'', tr ++ tr')
      | some (.ok rs, v'', tr') => some (.ok (r :: rs), v'', tr ++ tr')
termination_by (fuel, 1, elems.length)

/-- The object loop of `transform`: `for (const k in replaced)` over own
enumerable string keys in enumeration order, assigning `result[k] = transformed`
for every key (an `undefined` result still creates the property). -/
def transformFields (heap : Heap) (replacer : Replacer) (fuel : Nat) (a : Nat)
    (flds : List (String × JSVal)) (visited : List Nat) :
    Option (Except JSError (List (String × RVal)) × List Nat × List TEntry) :=
  match flds with
  | [] => some (.ok [], visited, [])
  | (k, e) :: es =>
    match transform heap replacer fuel (.container a) k e visited with
    | none => none
    | some (.error err, v', tr) => some (.error err, v', tr)
    | some (.ok r, v', tr) =>
      match transformFields heap replacer fuel a es v' with
      | none => none
      | some (.error err, v'', tr') => some (.error err, v'', tr ++ tr')
      | some (.ok rs, v'', tr') => some (.ok ((k, r) :: rs), v'', tr ++ tr')
termination_by (fuel, 1, flds.length)

end

/-!
Model of the external collaborator: the built-in synchronous `JSON.stringify`
(ES2023 §25.5.2), which the source calls as `JSON.stringify(transformedValue,
null, space)`.  It is split into `jsonEval`, which walks a value and produces
the abstract JSON tree (calling `toJSON` hooks, eliding `undefined` and
functions, checking cycles through a stack of container addresses, throwing on
`bigint`), and `renderTree`, which prints a JSON tree with the gap derived
from the `space` argument.  Fresh containers built by `transform`
(`RVal.arr`/`RVal.obj`) are new objects that can never be encountered twice on
a path, so only heap addresses participate in the cycle check.
-/

/-- The abstract JSON document produced by the encoder before printing. -/
inductive JsonTree where
  | null
  | bool (b : Bool)
  | num (n : Int)
  | str (s : String)
  | arr (elems : List JsonTree)
  | obj (fields : List (String × JsonTree))
deriving Repr

mutual

/-- `SerializeJSONProperty` on a value: `some (.ok none)` is the undefined
result (the property is omitted, or the whole call returns undefined),
`some (.error e)` a thrown `TypeError`, outer `none` exhausted fuel. -/
def jsonEval (heap : Heap) (fuel : Nat) (stack : List Nat) (v : RVal) :
    Option (Except JSError (Option JsonTree)) :=
  match fuel with
  | 0 => none
  | fuel + 1 =>
    match v with
    | .null => some (.ok (some .null))
    | .undef => some (.ok none)
    | .func _ => some (.ok none)
    | .bool b => some (.ok (some (.bool b)))
    | .num n => some (.ok (some (.num n)))
    | .str s => some (.ok (some (.str s)))
    | .bigint _ => some (.error .bigIntError)
    | .arr rs =>
      match jsonEvalElems heap fuel stack rs with
      | none => none
      | some (.error e) => some (.error e)
      | some (.ok ts) => some (.ok (some (.arr ts)))
    | .obj kvs =>
      match jsonEvalFields heap fuel stack kvs with
      | none => none
      | some (.error e) => some (.error e)
      | some (.ok ts) => some (.ok (some (.obj ts)))
    | .ref a =>
      match heap.get? a with
      | none => some (.ok none)
      | some (.hook r) =>
        -- toJSON is called once here; its result is not sent through a second
        -- toJSON call at this node.
        match r with
        | .ref b =>
          match heap.get? b with
          | some (.hook _) =>
            -- The result is itself a toJSON-bearing container: it is
            -- serialized as a plain object whose only own property is the
            -- callable toJSON, which the encoder omits.
            if b ∈ stack then some (.error .circularError)
            else some (.ok (some (.obj [])))
          | _ => jsonEval heap fuel stack (.ref b)
        | _ => jsonEval heap fuel stack (RVal.ofVal r)
      | some (.arr elems) =>
        if a ∈ stack then some (.error .circularError)
        else
          match jsonEvalElems heap fuel (a :: stack) (elems.map RVal.ofVal) with
          | none => none
          | some (.error e) => some (.error e)
          | some (.ok ts) => some (.ok (some (.arr ts)))
      | some (.obj flds) =>
        if a ∈ stack then some (.error .circularError)
        else
          match jsonEvalFields heap fuel (a :: stack)
              (flds.map fun p => (p.1, RVal.ofVal p.2)) with
          | none => none
          | some (.error e) => some (.error e)
          | some (.ok ts) => some (.ok (some (.obj ts)))
termination_by (fuel, 0, 0)

/-- `SerializeJSONArray` elements: an element whose serialization is undefined
(an `undefined` value or a function) occupies its slot as `null`. -/
def jsonEvalElems (heap : Heap) (fuel : Nat) (stack : List Nat) (rs : List RVal) :
    Option (Except JSError (List JsonTree)) :=
  match rs with
  | [] => some (.ok [])
  | r :: rest =>
    match jsonEval heap fuel stack r with
    | none => none
    | some (.error e) => some (.error e)
    | some (.ok t) =>
      match jsonEvalElems heap fuel stack rest with
      | none => none
      | some (.error e) => some (.error e)
      | some (.ok ts) => some (.ok (t.getD .null :: ts))
termination_by (fuel, 1, rs.length)

/-- `SerializeJSONObject` members: a member whose serialization is undefined
is omitted from the output. -/
def jsonEvalFields (heap : Heap) (fuel : Nat) (stack : List Nat)
    (kvs : List (String × RVal)) : Option (Except JSError (List (String × JsonTree))) :=
  match kvs with
  | [] => some (.ok [])
  | (k, r) :: rest =>
    match jsonEval heap fuel stack r with
    | none => none
    | some (.error e) => some (.error e)
    | some (.ok t) =>
      match jsonEvalFields heap fuel stack rest with
      | none => none
      | some (.error e) => some (.error e)
      | some (.ok ts) =>
        match t with
        | none => some (.ok ts)
        | some t' => some (.ok ((k, t') :: ts))
termination_by (fuel, 1, kvs.length)

end

/-- Hexadecimal digit, lowercase. -/
def hexDigit (n : Nat) : Char :=
  if n < 10 then Char.ofNat (48 + n) else Char.ofNat (87 + n)

/-- `QuoteJSONString` escaping for one character. -/
def escapeChar (c : Char) : String :=
  if c = Char.ofNat 34 then "\\\""
  else if c = Char.ofNat 92 then "\\\\"
  else if c = Char.ofNat 8 then "\\b"
  else if c = Char.ofNat 9 then "\\t"
  else if c = Char.ofNat 10 then "\\n"
  else if c = Char.ofNat 12 then "\\f"
  else if c = Char.ofNat 13 then "\\r"
  else if c.toNat < 32 then
    "\\u00" ++ String.mk [hexDigit (c.toNat / 16), hexDigit (c.toNat % 16)]
  else String.singleton c

/-- `QuoteJSONString`. -/
def quoteJson (s : String) : String :=
  "\"" ++ String.join (s.data.map escapeChar) ++ "\""

mutual

/-- Print a JSON tree with the given gap; `indent` is the current indentation
(`state.[[Indent]]`). -/
def renderTree (gap indent : String) : JsonTree → String
  | .null => "null"
  | .bool true => "true"
  | .bool false => "false"
  | .num n => toString n
  | .str s => quoteJson s
  | .arr ts =>
    let inner := indent ++ gap
    let parts := renderElems gap inner ts
    if parts.isEmpty then "[]"
    else if gap = "" then "[" ++ String.intercalate "," parts ++ "]"
    else "[\n" ++ inner ++ String.intercalate (",\n" ++ inner) parts ++ "\n" ++ indent ++ "]"
  | .obj kvs =>
    let inner := indent ++ gap
    let parts := renderMembers gap inner kvs
    if parts.isEmpty then "\x7b\x7d"
    else if gap = "" then "\x7b" ++ String.intercalate "," parts ++ "\x7d"
    else "\x7b\n" ++ inner ++ String.intercalate (",\n" ++ inner) parts ++ "\n" ++ indent ++ "\x7d"

/-- Rendered array elements, in order. -/
def renderElems (gap indent : String) : List JsonTree → List String
  | [] => []
  | t :: ts => renderTree gap indent t :: renderElems gap indent ts

/-- Rendered object members, in order; with a nonempty gap the colon is
followed by one space. -/
def renderMembers (gap indent : String) : List (String × JsonTree) → List String
  | [] => []
  | (k, t) :: ts =>
    (quoteJson k ++ (if gap = "" then ":" else ": ") ++ renderTree gap indent t)
      :: renderMembers gap indent ts

end

/-- The `space` argument of `asyncStringify`/`JSON.stringify`. -/
inductive Space where
  | absent
  | cnt (n : Int)
  | lit (s : String)
deriving DecidableEq, Repr

/-- The gap `JSON.stringify` derives from `space`: a number is clamped to
0..10 space characters, a string is truncated to its first 10 characters. -/
def gapOf : Space → String
  | .absent => ""
  | .cnt n => String.mk (List.replicate (min 10 (max 0 n)).toNat ' ')
  | .lit s => s.take 10

/-- The string `JSON.stringify` returns for an evaluated top-level tree:
`undefined` stays `undefined` (`none`). -/
def renderTop (space : Space) : Option JsonTree → Option String
  | none => none
  | some t => some (renderTree (gapOf space) "" t)

/-- The reference synchronous encoder `JSON.stringify(value, null, space)`
on a heap value. -/
def jsonStringify (heap : Heap) (value : JSVal) (space : Space) (fuel : Nat) :
    Option (Except JSError (Option String)) :=
  match jsonEval heap fuel [] (RVal.ofVal value) with
  | none => none
  | some (.error e) => some (.error e)
  | some (.ok ot) => some (.ok (renderTop space ot))

/-- The exported `asyncStringify(value, replacer, space)`: run `transform`
from the synthetic root holder with key `""`, then hand the transformed value
to `JSON.stringify(transformedValue, null, space)`. -/
def asyncStringify (heap : Heap) (replacer : Replacer) (value : JSVal)
    (space : Space) (fuel : Nat) : Option (Except JSError (Option String)) :=
  match transform heap replacer fuel (.root value) "" value [] with
  | none => none
  | some (.error e, _, _) => some (.error e)
  | some (.ok t, _, _) =>
    match jsonEval heap fuel [] t with
    | none => none
    | some (.error e) => some (.error e)
    | some (.ok ot) => some (.ok (renderTop space ot))

/-- The identity replacer: resolves to its value argument unchanged. -/
def idReplacer : Replacer := fun _ _ v => v

/-- Whether a replacer invocation recorded by `e` returned a `bigint`. -/
def bigEntry (replacer : Replacer) (e : TEntry) : Prop :=
  ∃ m, replacer e.ctx e.key e.val = .bigint m

mutual

/-- Depth of a result tree: the fuel `jsonEval` consumes between entering a
node and reaching a heap reference or a leaf. -/
def rdepth : RVal → Nat
  | .arr rs => rdepthList rs + 1
  | .obj kvs => rdepthFields kvs + 1
  | _ => 1

/-- Maximal depth of a list of result trees. -/
def rdepthList : List RVal → Nat
  | [] => 0
  | r :: rs => max (rdepth r) (rdepthList rs)

/-- Maximal depth of the values of a field list. -/
def rdepthFields : List (String × RVal) → Nat
  | [] => 0
  | kv :: rs => max (rdepth kv.2) (rdepthFields rs)

end

/-- The child values of a container the recursion descends into. -/
def HeapObj.childVals : HeapObj → List JSVal
  | .arr elems => elems
  | .obj flds => flds.map Prod.snd
  | .hook _ => []

/-- A plain container: one without a serialization hook. -/
def HeapObj.isPlain : HeapObj → Bool
  | .hook _ => false
  | _ => true

/-- Reachability along the recursion's child edges, through plain containers
only. -/
inductive Reaches (heap : Heap) : JSVal → Nat → Prop where
  | here {a : Nat} {o : HeapObj} (hget : heap.get? a = some o)
      (hplain : o.isPlain = true) : Reaches heap (.ref a) a
  | via {a : Nat} {o : HeapObj} {w : JSVal} {b : Nat}
      (hget : heap.get? a = some o) (hplain : o.isPlain = true)
      (hw : w ∈ o.childVals) (hr : Reaches heap w b) : Reaches heap (.ref a) b

/-- A plain container is reachable that is an ancestor of one of its own
descendants: the single-recursion-path cycle of the specification. -/
def HasCycle (heap : Heap) (v : JSVal) : Prop :=
  ∃ b o, Reaches heap v b ∧ heap.get? b = some o ∧
    ∃ w ∈ o.childVals, Reaches heap w b

/-- The replacer of the C6 scenario: maps the key `"private"` to undefined,
everything else to itself. -/
def privReplacer : Replacer := fun _ k v => if k = "private" then .undef else v

/-- The values along which a container can refer to other containers: its
children, and for a hook container its `toJSON` result. -/
def HeapObj.edgeVals : HeapObj → List JSVal
  | .hook r => [r]
  | o => o.childVals

/-- `rank` certifies the heap acyclic: every reference edge strictly
decreases it. -/
def AcyclicRank (heap : Heap) (rank : Nat → Nat) : Prop :=
  ∀ a o, heap.get? a = some o → ∀ w ∈ o.edgeVals, ∀ b, w = JSVal.ref b →
    rank b < rank a

/-- No serialization hook returns a value that is itself a hook-bearing
container — the one shape on which the two pipelines differ: the reference
encoder applies `toJSON` once per node, while the engine's raw hook result
receives a second application from the final render. -/
def TameHooks (heap : Heap) : Prop :=
  ∀ a r, heap.get? a = some (.hook r) → ∀ b, r = JSVal.ref b →
    ∀ r2, heap.get? b ≠ some (HeapObj.hook r2)

/-- All references of `v` have rank below `n`. -/
def RankBound (rank : Nat → Nat) (v : JSVal) (n : Nat) : Prop :=
  ∀ b, v = JSVal.ref b → rank b < n

/-- The induction invariant of the equivalence proof: below rank bound `n`,
the identity-replacer transform of `v` succeeds (or fails on a `bigint`),
restores the visited set, and its result renders — at any sufficient fuel and
any stack — to the same value (never the circular error) that the reference
encoder computes for `v` directly. -/
def ValEquivAt (heap : Heap) (rank : Nat → Nat) (n : Nat) (v : JSVal) : Prop :=
  ∀ parent key visited, (∀ x ∈ visited, n ≤ rank x) →
  ∀ fuelT, n + 1 ≤ fuelT →
  ∃ res tr, transform heap idReplacer fuelT parent key v visited = some (res, visited, tr) ∧
    ∀ fuelR stackD, n + 2 ≤ fuelR → (∀ x ∈ stackD, n ≤ rank x) →
      ∃ w, jsonEval heap fuelR stackD (RVal.ofVal v) = some w ∧
        w ≠ .error .circularError ∧
        (∀ err, res = .error err → err = .bigIntError ∧ w = .error .bigIntError) ∧
        (∀ t, res = .ok t → ∀ fuelL stackL, n + 2 ≤ fuelL →
          (∀ x ∈ stackL, n ≤ rank x) →
          jsonEval heap fuelL stackL t = some w)

/-- The heap of the C1 counterexample: the root object's single member `"a"`
is a hook container whose `toJSON` returns another hook container whose
`toJSON` returns 42. -/
def hookChainHeap : Heap :=
  [.obj [("a", .ref 1)], .hook (.ref 2), .hook (.num 42)]

/-!
Structural invariants of the traversal, proved simultaneously by induction on
the fuel: the visited set is restored on every exit path (the `finally`
discipline), every trace starts with the call's own replacer invocation and
all deeper invocations have a container as their `this` binding, and the
result is the BigInt `TypeError` exactly when some performed invocation
returned a `bigint`.
-/

theorem removeFirst_cons_self (a : Nat) (l : List Nat) : removeFirst a (a :: l) = l := by
  simp [removeFirst]


/-- Destruct an equality of optional triples into its components. -/
theorem some_triple_inj {A B C : Type _} {a a' : A} {b b' : B} {c c' : C}
    (h : (some (a, b, c) : Option (A × B × C)) = some (a', b', c')) :
    a = a' ∧ b = b' ∧ c = c' :=
  ⟨congrArg (fun p => p.1) (Option.some.inj h),
   congrArg (fun p => p.2.1) (Option.some.inj h),
   congrArg (fun p => p.2.2) (Option.some.inj h)⟩

theorem transform_core_inv (heap : Heap) (replacer : Replacer) : ∀ fuel,
    (∀ parent key val visited res v' tr,
      transform heap replacer fuel parent key val visited = some (res, v', tr) →
        v' = visited ∧
        (∃ rest, tr = ⟨parent, key, val⟩ :: rest ∧
          ∀ e ∈ rest, ∃ b, e.ctx = Ctx.container b) ∧
        ((∃ e ∈ tr, bigEntry replacer e) ↔ res = .error .bigIntError)) ∧
    (∀ a elems idx visited res v' tr,
      transformElems heap replacer fuel a elems idx visited = some (res, v', tr) →
        v' = visited ∧
        (∀ e ∈ tr, ∃ b, e.ctx = Ctx.container b) ∧
        ((∃ e ∈ tr, bigEntry replacer e) ↔ res = .error .bigIntError)) ∧
    (∀ a flds visited res v' tr,
      transformFields heap replacer fuel a flds visited = some (res, v', tr) →
        v' = visited ∧
        (∀ e ∈ tr, ∃ b, e.ctx = Ctx.container b) ∧
        ((∃ e ∈ tr, bigEntry replacer e) ↔ res = .error .bigIntError)) := by
  intro fuel
  induction fuel with
  | zero =>
    refine ⟨?_, ?_, ?_⟩
    · intro parent key val visited res v' tr h
      rw [transform] at h
      exact absurd h (by simp)
    · intro a elems idx visited res v' tr h
      match elems with
      | [] =>
        rw [transformElems] at h
        obtain ⟨h1, h2, h3⟩ := some_triple_inj h
        subst h1 h2 h3
        refine ⟨rfl, by simp, by simp⟩
      | e :: es =>
        rw [transformElems, transform] at h
        exact absurd h (by simp)
    · intro a flds visited res v' tr h
      match flds with
      | [] =>
        rw [transformFields] at h
        obtain ⟨h1, h2, h3⟩ := some_triple_inj h
        subst h1 h2 h3
        refine ⟨rfl, by simp, by simp⟩
      | (k, e) :: es =>
        rw [transformFields, transform] at h
        exact absurd h (by simp)
  | succ n ih =>
    obtain ⟨ihT, ihE, ihF⟩ := ih
    have hT : ∀ parent key val visited res v' tr,
        transform heap replacer (n + 1) parent key val visited = some (res, v', tr) →
          v' = visited ∧
          (∃ rest, tr = ⟨parent, key, val⟩ :: rest ∧
            ∀ e ∈ rest, ∃ b, e.ctx = Ctx.container b) ∧
          ((∃ e ∈ tr, bigEntry replacer e) ↔ res = .error .bigIntError) := by
      intro parent key val visited res v' tr h
      rw [transform] at h
      split at h
      case _ m heq =>
        obtain ⟨h1, h2, h3⟩ := some_triple_inj h
        subst h1 h2 h3
        refine ⟨rfl, ⟨[], rfl, by simp⟩, ?_⟩
        simp [bigEntry, heq]
      case _ heq =>
        obtain ⟨h1, h2, h3⟩ := some_triple_inj h
        subst h1 h2 h3
        exact ⟨rfl, ⟨[], rfl, by simp⟩, by simp [bigEntry, heq]⟩
      case _ heq =>
        obtain ⟨h1, h2, h3⟩ := some_triple_inj h
        subst h1 h2 h3
        exact ⟨rfl, ⟨[], rfl, by simp⟩, by simp [bigEntry, heq]⟩
      case _ b heq =>
        obtain ⟨h1, h2, h3⟩ := some_triple_inj h
        subst h1 h2 h3
        exact ⟨rfl, ⟨[], rfl, by simp⟩, by simp [bigEntry, heq]⟩
      case _ m heq =>
        obtain ⟨h1, h2, h3⟩ := some_triple_inj h
        subst h1 h2 h3
        exact ⟨rfl, ⟨[], rfl, by simp⟩, by simp [bigEntry, heq]⟩
      case _ s heq =>
        obtain ⟨h1, h2, h3⟩ := some_triple_inj h
        subst h1 h2 h3
        exact ⟨rfl, ⟨[], rfl, by simp⟩, by simp [bigEntry, heq]⟩
      case _ i heq =>
        obtain ⟨h1, h2, h3⟩ := some_triple_inj h
        subst h1 h2 h3
        exact ⟨rfl, ⟨[], rfl, by simp⟩, by simp [bigEntry, heq]⟩
      case _ a heq =>
        split at h
        case _ hget =>
          obtain ⟨h1, h2, h3⟩ := some_triple_inj h
          subst h1 h2 h3
          exact ⟨rfl, ⟨[], rfl, by simp⟩, by simp [bigEntry, heq]⟩
        case _ r hget =>
          obtain ⟨h1, h2, h3⟩ := some_triple_inj h
          subst h1 h2 h3
          exact ⟨rfl, ⟨[], rfl, by simp⟩, by simp [bigEntry, heq]⟩
        case _ elems hget =>
          split at h
          case isTrue hmem =>
            obtain ⟨h1, h2, h3⟩ := some_triple_inj h
            subst h1 h2 h3
            exact ⟨rfl, ⟨[], rfl, by simp⟩, by simp [bigEntry, heq]⟩
          case isFalse hmem =>
            split at h
            case _ => exact absurd h (by simp)
            case _ err v2 tr2 hE =>
              obtain ⟨h1, h2, h3⟩ := some_triple_inj h
              subst h1 h2 h3
              obtain ⟨hv2, hctx, hbig⟩ := ihE _ _ _ _ _ _ _ hE
              subst hv2
              refine ⟨removeFirst_cons_self .., ⟨tr2, rfl, hctx⟩, ?_⟩
              simp only [List.mem_cons, bigEntry]
              constructor
              · rintro ⟨e', he', m, hm⟩
                rcases he' with rfl | he'
                · exact absurd hm (by simp [heq])
                · have := hbig.mp ⟨e', he', m, hm⟩
                  simpa using this
              · intro hres
                obtain ⟨e', he', hm⟩ := hbig.mpr (by simpa using hres)
                exact ⟨e', Or.inr he', hm⟩
            case _ rs v2 tr2 hE =>
              obtain ⟨h1, h2, h3⟩ := some_triple_inj h
              subst h1 h2 h3
              obtain ⟨hv2, hctx, hbig⟩ := ihE _ _ _ _ _ _ _ hE
              subst hv2
              refine ⟨removeFirst_cons_self .., ⟨tr2, rfl, hctx⟩, ?_⟩
              simp only [List.mem_cons, bigEntry]
              constructor
              · rintro ⟨e', he', m, hm⟩
                rcases he' with rfl | he'
                · exact absurd hm (by simp [heq])
                · have := hbig.mp ⟨e', he', m, hm⟩
                  simp at this
              · intro hres
                exact absurd hres (by simp)
        case _ flds hget =>
          split at h
          case isTrue hmem =>
            obtain ⟨h1, h2, h3⟩ := some_triple_inj h
            subst h1 h2 h3
            exact ⟨rfl, ⟨[], rfl, by simp⟩, by simp [bigEntry, heq]⟩
          case isFalse hmem =>
            split at h
            case _ => exact absurd h (by simp)
            case _ err v2 tr2 hF =>
              obtain ⟨h1, h2, h3⟩ := some_triple_inj h
              subst h1 h2 h3
              obtain ⟨hv2, hctx, hbig⟩ := ihF _ _ _ _ _ _ hF
              subst hv2
              refine ⟨removeFirst_cons_self .., ⟨tr2, rfl, hctx⟩, ?_⟩
              simp only [List.mem_cons, bigEntry]
              constructor
              · rintro ⟨e', he', m, hm⟩
                rcases he' with rfl | he'
                · exact absurd hm (by simp [heq])
                · have := hbig.mp ⟨e', he', m, hm⟩
                  simpa using this
              · intro hres
                obtain ⟨e', he', hm⟩ := hbig.mpr (by simpa using hres)
                exact ⟨e', Or.inr he', hm⟩
            case _ rs v2 tr2 hF =>
              obtain ⟨h1, h2, h3⟩ := some_triple_inj h
              subst h1 h2 h3
              obtain ⟨hv2, hctx, hbig⟩ := ihF _ _ _ _ _ _ hF
              subst hv2
              refine ⟨removeFirst_cons_self .., ⟨tr2, rfl, hctx⟩, ?_⟩
              simp only [List.mem_cons, bigEntry]
              constructor
              · rintro ⟨e', he', m, hm⟩
                rcases he' with rfl | he'
                · exact absurd hm (by simp [heq])
                · have := hbig.mp ⟨e', he', m, hm⟩
                  simp at this
              · intro hres
                exact absurd hres (by simp)
    have hE : ∀ a elems idx visited res v' tr,
        transformElems heap replacer (n + 1) a elems idx visited = some (res, v', tr) →
          v' = visited ∧
          (∀ e ∈ tr, ∃ b, e.ctx = Ctx.container b) ∧
          ((∃ e ∈ tr, bigEntry replacer e) ↔ res = .error .bigIntError) := by
      intro a elems
      induction elems with
      | nil =>
        intro idx visited res v' tr h
        rw [transformElems] at h
        obtain ⟨h1, h2, h3⟩ := some_triple_inj h
        subst h1 h2 h3
        exact ⟨rfl, by simp, by simp⟩
      | cons e es ihes =>
        intro idx visited res v' tr h
        rw [transformElems] at h
        split at h
        case _ => exact absurd h (by simp)
        case _ err v2 tr2 hch =>
          obtain ⟨h1, h2, h3⟩ := some_triple_inj h
          subst h1 h2 h3
          obtain ⟨hv2, ⟨rest, hrest, hctx⟩, hbig⟩ := hT _ _ _ _ _ _ _ hch
          subst hv2
          refine ⟨rfl, ?_, ?_⟩
          · intro e' he'
            rw [hrest] at he'
            rcases List.mem_cons.mp he' with he' | he'
            · exact ⟨a, by rw [he']⟩
            · exact hctx _ he'
          · simpa using hbig
        case _ r v2 tr2 hch =>
          split at h
          case _ => exact absurd h (by simp)
          case _ err v3 tr3 hrest2 =>
            obtain ⟨h1, h2, h3⟩ := some_triple_inj h
            subst h1 h2 h3
            obtain ⟨hv2, ⟨rest, hrest, hctx⟩, hbig⟩ := hT _ _ _ _ _ _ _ hch
            subst hv2
            obtain ⟨hv3, hctx3, hbig3⟩ := ihes _ _ _ _ _ hrest2
            subst hv3
            refine ⟨rfl, ?_, ?_⟩
            · intro e' he'
              rcases List.mem_append.mp he' with he' | he'
              · rw [hrest] at he'
                rcases List.mem_cons.mp he' with he' | he'
                · exact ⟨a, by rw [he']⟩
                · exact hctx _ he'
              · exact hctx3 _ he'
            · constructor
              · rintro ⟨e', he', hm⟩
                rcases List.mem_append.mp he' with he' | he'
                · have := hbig.mp ⟨e', he', hm⟩
                  simp at this
                · exact hbig3.mp ⟨e', he', hm⟩
              · intro hres
                obtain ⟨e', he', hm⟩ := hbig3.mpr hres
                exact ⟨e', List.mem_append.mpr (Or.inr he'), hm⟩
          case _ rs v3 tr3 hrest2 =>
            obtain ⟨h1, h2, h3⟩ := some_triple_inj h
            subst h1 h2 h3
            obtain ⟨hv2, ⟨rest, hrest, hctx⟩, hbig⟩ := hT _ _ _ _ _ _ _ hch
            subst hv2
            obtain ⟨hv3, hctx3, hbig3⟩ := ihes _ _ _ _ _ hrest2
            subst hv3
            refine ⟨rfl, ?_, ?_⟩
            · intro e' he'
              rcases List.mem_append.mp he' with he' | he'
              · rw [hrest] at he'
                rcases List.mem_cons.mp he' with he' | he'
                · exact ⟨a, by rw [he']⟩
                · exact hctx _ he'
              · exact hctx3 _ he'
            · constructor
              · rintro ⟨e', he', hm⟩
                rcases List.mem_append.mp he' with he' | he'
                · have := hbig.mp ⟨e', he', hm⟩
                  simp at this
                · have := hbig3.mp ⟨e', he', hm⟩
                  simp at this
              · intro hres
                exact absurd hres (by simp)
    have hF : ∀ a flds visited res v' tr,
        transformFields heap replacer (n + 1) a flds visited = some (res, v', tr) →
          v' = visited ∧
          (∀ e ∈ tr, ∃ b, e.ctx = Ctx.container b) ∧
          ((∃ e ∈ tr, bigEntry replacer e) ↔ res = .error .bigIntError) := by
      intro a flds
      induction flds with
      | nil =>
        intro visited res v' tr h
        rw [transformFields] at h
        obtain ⟨h1, h2, h3⟩ := some_triple_inj h
        subst h1 h2 h3
        exact ⟨rfl, by simp, by simp⟩
      | cons ke es ihes =>
        intro visited res v' tr h
        match ke with
        | (k, e) =>
        rw [transformFields] at h
        split at h
        case _ => exact absurd h (by simp)
        case _ err v2 tr2 hch =>
          obtain ⟨h1, h2, h3⟩ := some_triple_inj h
          subst h1 h2 h3
          obtain ⟨hv2, ⟨rest, hrest, hctx⟩, hbig⟩ := hT _ _ _ _ _ _ _ hch
          subst hv2
          refine ⟨rfl, ?_, ?_⟩
          · intro e' he'
            rw [hrest] at he'
            rcases List.mem_cons.mp he' with he' | he'
            · exact ⟨a, by rw [he']⟩
            · exact hctx _ he'
          · simpa using hbig
        case _ r v2 tr2 hch =>
          split at h
          case _ => exact absurd h (by simp)
          case _ err v3 tr3 hrest2 =>
            obtain ⟨h1, h2, h3⟩ := some_triple_inj h
            subst h1 h2 h3
            obtain ⟨hv2, ⟨rest, hrest, hctx⟩, hbig⟩ := hT _ _ _ _ _ _ _ hch
            subst hv2
            obtain ⟨hv3, hctx3, hbig3⟩ := ihes _ _ _ _ hrest2
            subst hv3
            refine ⟨rfl, ?_, ?_⟩
            · intro e' he'
              rcases List.mem_append.mp he' with he' | he'
              · rw [hrest] at he'
                rcases List.mem_cons.mp he' with he' | he'
                · exact ⟨a, by rw [he']⟩
                · exact hctx _ he'
              · exact hctx3 _ he'
            · constructor
              · rintro ⟨e', he', hm⟩
                rcases List.mem_append.mp he' with he' | he'
                · have := hbig.mp ⟨e', he', hm⟩
                  simp at this
                · exact hbig3.mp ⟨e', he', hm⟩
              · intro hres
                obtain ⟨e', he', hm⟩ := hbig3.mpr hres
                exact ⟨e', List.mem_append.mpr (Or.inr he'), hm⟩
          case _ rs v3 tr3 hrest2 =>
            obtain ⟨h1, h2, h3⟩ := some_triple_inj h
            subst h1 h2 h3
            obtain ⟨hv2, ⟨rest, hrest, hctx⟩, hbig⟩ := hT _ _ _ _ _ _ _ hch
            subst hv2
            obtain ⟨hv3, hctx3, hbig3⟩ := ihes _ _ _ _ hrest2
            subst hv3
            refine ⟨rfl, ?_, ?_⟩
            · intro e' he'
              rcases List.mem_append.mp he' with he' | he'
              · rw [hrest] at he'
                rcases List.mem_cons.mp he' with he' | he'
                · exact ⟨a, by rw [he']⟩
                · exact hctx _ he'
              · exact hctx3 _ he'
            · constructor
              · rintro ⟨e', he', hm⟩
                rcases List.mem_append.mp he' with he' | he'
                · have := hbig.mp ⟨e', he', hm⟩
                  simp at this
                · have := hbig3.mp ⟨e', he', hm⟩
                  simp at this
              · intro hres
                exact absurd hres (by simp)
    exact ⟨hT, hE, hF⟩

/-!
Termination: the recursion depth is bounded by the number of distinct
container references, because entering a container adds its (fresh, valid)
address to the visited set, and a nodup list of addresses below
`heap.length` cannot be longer than `heap.length`.
-/

theorem nodup_bounded_length_le {l : List Nat} {n : Nat} (hnd : l.Nodup)
    (hb : ∀ x ∈ l, x < n) : l.length ≤ n := by
  have h1 : l.toFinset ⊆ Finset.range n := by
    intro x hx
    simp only [List.mem_toFinset] at hx
    exact Finset.mem_range.mpr (hb x hx)
  have h2 := Finset.card_le_card h1
  rwa [List.toFinset_card_of_nodup hnd, Finset.card_range] at h2

theorem get?_lt_length {heap : Heap} {a : Nat} {o : HeapObj}
    (hget : heap.get? a = some o) : a < heap.length := by
  rcases Nat.lt_or_ge a heap.length with h | h
  · exact h
  · rw [List.get?_eq_none.mpr h] at hget
    exact absurd hget (by simp)

theorem transform_fuel (heap : Heap) (replacer : Replacer) : ∀ fuel,
    (∀ parent key val visited, visited.Nodup → (∀ x ∈ visited, x < heap.length) →
      heap.length - visited.length < fuel →
      transform heap replacer fuel parent key val visited ≠ none) ∧
    (∀ a elems idx visited, visited.Nodup → (∀ x ∈ visited, x < heap.length) →
      heap.length - visited.length < fuel →
      transformElems heap replacer fuel a elems idx visited ≠ none) ∧
    (∀ a flds visited, visited.Nodup → (∀ x ∈ visited, x < heap.length) →
      heap.length - visited.length < fuel →
      transformFields heap replacer fuel a flds visited ≠ none) := by
  intro fuel
  induction fuel with
  | zero =>
    refine ⟨?_, ?_, ?_⟩ <;> · intro _ _ _ _ _ _ hlt; omega
  | succ n ih =>
    obtain ⟨ihT, ihE, ihF⟩ := ih
    have hT : ∀ parent key val visited, visited.Nodup →
        (∀ x ∈ visited, x < heap.length) →
        heap.length - visited.length < n + 1 →
        transform heap replacer (n + 1) parent key val visited ≠ none := by
      intro parent key val visited hnd hb hlt
      rw [transform]
      split
      case _ => simp
      case _ => simp
      case _ => simp
      case _ => simp
      case _ => simp
      case _ => simp
      case _ => simp
      case _ a heq =>
        split
        case _ => simp
        case _ => simp
        case _ elems hget =>
          split
          case isTrue => simp
          case isFalse hmem =>
            have ha : a < heap.length := get?_lt_length hget
            have hnd' : (a :: visited).Nodup := List.nodup_cons.mpr ⟨hmem, hnd⟩
            have hb' : ∀ x ∈ a :: visited, x < heap.length := by
              intro x hx
              rcases List.mem_cons.mp hx with rfl | hx
              · exact ha
              · exact hb x hx
            have hlen : (a :: visited).length ≤ heap.length :=
              nodup_bounded_length_le hnd' hb'
            have hlt' : heap.length - (a :: visited).length < n := by
              simp only [List.length_cons] at hlen ⊢
              omega
            have hne := ihE a elems 0 (a :: visited) hnd' hb' hlt'
            split
            case _ hnone => exact absurd hnone hne
            case _ => simp
            case _ => simp
        case _ flds hget =>
          split
          case isTrue => simp
          case isFalse hmem =>
            have ha : a < heap.length := get?_lt_length hget
            have hnd' : (a :: visited).Nodup := List.nodup_cons.mpr ⟨hmem, hnd⟩
            have hb' : ∀ x ∈ a :: visited, x < heap.length := by
              intro x hx
              rcases List.mem_cons.mp hx with rfl | hx
              · exact ha
              · exact hb x hx
            have hlen : (a :: visited).length ≤ heap.length :=
              nodup_bounded_length_le hnd' hb'
            have hlt' : heap.length - (a :: visited).length < n := by
              simp only [List.length_cons] at hlen ⊢
              omega
            have hne := ihF a flds (a :: visited) hnd' hb' hlt'
            split
            case _ hnone => exact absurd hnone hne
            case _ => simp
            case _ => simp
    have hE : ∀ a elems idx visited, visited.Nodup →
        (∀ x ∈ visited, x < heap.length) →
        heap.length - visited.length < n + 1 →
        transformElems heap replacer (n + 1) a elems idx visited ≠ none := by
      intro a elems
      induction elems with
      | nil =>
        intro idx visited _ _ _
        rw [transformElems]
        simp
      | cons e es ihes =>
        intro idx visited hnd hb hlt
        rw [transformElems]
        split
        case _ hnone => exact absurd hnone (hT _ _ _ _ hnd hb hlt)
        case _ => simp
        case _ r v2 tr2 hch =>
          have hv2 : v2 = visited :=
            ((transform_core_inv heap replacer (n + 1)).1 _ _ _ _ _ _ _ hch).1
          rw [hv2]
          have hne := ihes (idx + 1) visited hnd hb hlt
          split
          case _ hnone => exact absurd hnone hne
          case _ => simp
          case _ => simp
    have hF : ∀ a flds visited, visited.Nodup →
        (∀ x ∈ visited, x < heap.length) →
        heap.length - visited.length < n + 1 →
        transformFields heap replacer (n + 1) a flds visited ≠ none := by
      intro a flds
      induction flds with
      | nil =>
        intro visited _ _ _
        rw [transformFields]
        simp
      | cons ke es ihes =>
        intro visited hnd hb hlt
        match ke with
        | (k, e) =>
        rw [transformFields]
        split
        case _ hnone => exact absurd hnone (hT _ _ _ _ hnd hb hlt)
        case _ => simp
        case _ r v2 tr2 hch =>
          have hv2 : v2 = visited :=
            ((transform_core_inv heap replacer (n + 1)).1 _ _ _ _ _ _ _ hch).1
          rw [hv2]
          have hne := ihes visited hnd hb hlt
          split
          case _ hnone => exact absurd hnone hne
          case _ => simp
          case _ => simp
    exact ⟨hT, hE, hF⟩


theorem rdepth_ofVal (v : JSVal) : rdepth (RVal.ofVal v) = 1 := by
  cases v <;> simp [RVal.ofVal, rdepth]

theorem rdepthList_map_ofVal (l : List JSVal) : rdepthList (l.map RVal.ofVal) ≤ 1 := by
  induction l with
  | nil => simp [rdepthList]
  | cons e es ih => simp [rdepthList, rdepth_ofVal]; omega

theorem rdepthFields_map_ofVal (l : List (String × JSVal)) :
    rdepthFields (l.map fun p => (p.1, RVal.ofVal p.2)) ≤ 1 := by
  induction l with
  | nil => simp [rdepthFields]
  | cons e es ih => simp [rdepthFields, rdepth_ofVal]; omega

theorem rdepth_pos (v : RVal) : 1 ≤ rdepth v := by
  cases v <;> simp [rdepth]

theorem jsonEval_fuel (heap : Heap) : ∀ fuel,
    (∀ stack v, stack.Nodup → (∀ x ∈ stack, x < heap.length) →
      rdepth v + 3 * (heap.length + 1 - stack.length) < fuel →
      jsonEval heap fuel stack v ≠ none) ∧
    (∀ stack rs, stack.Nodup → (∀ x ∈ stack, x < heap.length) →
      rdepthList rs + 3 * (heap.length + 1 - stack.length) < fuel →
      jsonEvalElems heap fuel stack rs ≠ none) ∧
    (∀ stack kvs, stack.Nodup → (∀ x ∈ stack, x < heap.length) →
      rdepthFields kvs + 3 * (heap.length + 1 - stack.length) < fuel →
      jsonEvalFields heap fuel stack kvs ≠ none) := by
  intro fuel
  induction fuel using Nat.strong_induction_on with
  | _ fuel ih =>
  have hP : ∀ stack v, stack.Nodup → (∀ x ∈ stack, x < heap.length) →
      rdepth v + 3 * (heap.length + 1 - stack.length) < fuel →
      jsonEval heap fuel stack v ≠ none := by
    intro stack v hnd hb hlt
    have hstep : ∀ b, b ∉ stack → b < heap.length →
        (b :: stack).Nodup ∧ (∀ x ∈ b :: stack, x < heap.length) ∧
          heap.length + 1 - (b :: stack).length + 1 ≤ heap.length + 1 - stack.length := by
      intro b hmem hblt
      have hb' : ∀ x ∈ b :: stack, x < heap.length := by
        intro x hx
        rcases List.mem_cons.mp hx with rfl | hx
        · exact hblt
        · exact hb x hx
      have hnd' : (b :: stack).Nodup := List.nodup_cons.mpr ⟨hmem, hnd⟩
      have hlen := nodup_bounded_length_le hnd' hb'
      refine ⟨hnd', hb', ?_⟩
      simp only [List.length_cons] at hlen ⊢
      omega
    obtain ⟨f1, rfl⟩ : ∃ f1, fuel = f1 + 1 :=
      ⟨fuel - 1, by have := rdepth_pos v; omega⟩
    cases v with
    | null => rw [jsonEval]; simp
    | undef => rw [jsonEval]; simp
    | func i => rw [jsonEval]; simp
    | bool b => rw [jsonEval]; simp
    | num n => rw [jsonEval]; simp
    | str s => rw [jsonEval]; simp
    | bigint n => rw [jsonEval]; simp
    | arr rs =>
      rw [jsonEval]
      have hne := (ih f1 (by omega)).2.1 stack rs hnd hb
        (by simp [rdepth] at hlt; omega)
      split
      case _ hnone => exact absurd hnone hne
      case _ => simp
      case _ => simp
    | obj kvs =>
      rw [jsonEval]
      have hne := (ih f1 (by omega)).2.2 stack kvs hnd hb
        (by simp [rdepth] at hlt; omega)
      split
      case _ hnone => exact absurd hnone hne
      case _ => simp
      case _ => simp
    | ref a =>
      simp only [rdepth] at hlt
      rw [jsonEval]
      split
      case _ hget => simp
      case _ r hget =>
        split
        case _ b =>
          split
          case _ hget2 => split <;> simp
          case _ hnothook =>
            obtain ⟨f2, rfl⟩ : ∃ f2, f1 = f2 + 1 := ⟨f1 - 1, by omega⟩
            rw [jsonEval]
            split
            case _ hget2 => simp
            case _ r2 hget2 => exact absurd hget2 (by simp_all)
            case _ elems2 hget2 =>
              split
              case isTrue => simp
              case isFalse hmem =>
                obtain ⟨hnd', hb', hlen⟩ := hstep b hmem (get?_lt_length hget2)
                have hne := (ih f2 (by omega)).2.1 (b :: stack) (elems2.map RVal.ofVal)
                  hnd' hb'
                  (by have := rdepthList_map_ofVal elems2
                      omega)
                split
                case _ hnone => exact absurd hnone hne
                case _ => simp
                case _ => simp
            case _ flds2 hget2 =>
              split
              case isTrue => simp
              case isFalse hmem =>
                obtain ⟨hnd', hb', hlen⟩ := hstep b hmem (get?_lt_length hget2)
                have hne := (ih f2 (by omega)).2.2 (b :: stack)
                  (flds2.map fun p => (p.1, RVal.ofVal p.2)) hnd' hb'
                  (by have := rdepthFields_map_ofVal flds2
                      omega)
                split
                case _ hnone => exact absurd hnone hne
                case _ => simp
                case _ => simp
        case _ hnotref =>
          obtain ⟨f2, rfl⟩ : ∃ f2, f1 = f2 + 1 := ⟨f1 - 1, by omega⟩
          cases r with
          | ref b => exact absurd rfl (fun h => hnotref b h)
          | null => show jsonEval heap (f2+1) stack (RVal.ofVal .null) ≠ none; rw [RVal.ofVal, jsonEval]; simp
          | undef => show jsonEval heap (f2+1) stack (RVal.ofVal .undef) ≠ none; rw [RVal.ofVal, jsonEval]; simp
          | bool b => show jsonEval heap (f2+1) stack (RVal.ofVal (.bool b)) ≠ none; rw [RVal.ofVal, jsonEval]; simp
          | num n => show jsonEval heap (f2+1) stack (RVal.ofVal (.num n)) ≠ none; rw [RVal.ofVal, jsonEval]; simp
          | str s => show jsonEval heap (f2+1) stack (RVal.ofVal (.str s)) ≠ none; rw [RVal.ofVal, jsonEval]; simp
          | bigint n => show jsonEval heap (f2+1) stack (RVal.ofVal (.bigint n)) ≠ none; rw [RVal.ofVal, jsonEval]; simp
          | func i => show jsonEval heap (f2+1) stack (RVal.ofVal (.func i)) ≠ none; rw [RVal.ofVal, jsonEval]; simp
      case _ elems hget =>
        split
        case isTrue => simp
        case isFalse hmem =>
          obtain ⟨hnd', hb', hlen⟩ := hstep a hmem (get?_lt_length hget)
          have hne := (ih f1 (by omega)).2.1 (a :: stack) (elems.map RVal.ofVal)
            hnd' hb'
            (by have := rdepthList_map_ofVal elems
                omega)
          split
          case _ hnone => exact absurd hnone hne
          case _ => simp
          case _ => simp
      case _ flds hget =>
        split
        case isTrue => simp
        case isFalse hmem =>
          obtain ⟨hnd', hb', hlen⟩ := hstep a hmem (get?_lt_length hget)
          have hne := (ih f1 (by omega)).2.2 (a :: stack)
            (flds.map fun p => (p.1, RVal.ofVal p.2)) hnd' hb'
            (by have := rdepthFields_map_ofVal flds
                omega)
          split
          case _ hnone => exact absurd hnone hne
          case _ => simp
          case _ => simp
  have hQ : ∀ stack rs, stack.Nodup → (∀ x ∈ stack, x < heap.length) →
      rdepthList rs + 3 * (heap.length + 1 - stack.length) < fuel →
      jsonEvalElems heap fuel stack rs ≠ none := by
    intro stack rs hnd hb
    induction rs with
    | nil =>
      intro _
      rw [jsonEvalElems]
      simp
    | cons r rest ihr =>
      intro hlt
      rw [jsonEvalElems]
      split
      case _ hnone =>
        exact absurd hnone (hP stack r hnd hb
          (by simp [rdepthList] at hlt; omega))
      case _ => simp
      case _ =>
        have hne := ihr (by simp [rdepthList] at hlt; omega)
        split
        case _ hnone => exact absurd hnone hne
        case _ => simp
        case _ => simp
  have hR : ∀ stack kvs, stack.Nodup → (∀ x ∈ stack, x < heap.length) →
      rdepthFields kvs + 3 * (heap.length + 1 - stack.length) < fuel →
      jsonEvalFields heap fuel stack kvs ≠ none := by
    intro stack kvs hnd hb
    induction kvs with
    | nil =>
      intro _
      rw [jsonEvalFields]
      simp
    | cons kv rest ihr =>
      intro hlt
      match kv with
      | (k, r) =>
      rw [jsonEvalFields]
      split
      case _ hnone =>
        exact absurd hnone (hP stack r hnd hb
          (by simp [rdepthFields] at hlt; omega))
      case _ => simp
      case _ =>
        have hne := ihr (by simp [rdepthFields] at hlt; omega)
        split
        case _ hnone => exact absurd hnone hne
        case _ => simp
        case _ => split <;> simp
  exact ⟨hP, hQ, hR⟩

/-!
Cycle detection.  `Reaches heap v b` says the traversal can reach the plain
container at address `b` from the value `v` along structural child edges that
pass only through plain containers (a `toJSON` hook short-circuits the
recursion, so no recursion path leads through one).  A cycle is a reachable
plain container one of whose children reaches it back.
-/





/-- If the element loop finished successfully, every element's own transform
call (from the restored visited set) succeeded. -/
theorem transformElems_ok_child (heap : Heap) (replacer : Replacer) (fuel : Nat)
    (a : Nat) : ∀ elems idx visited rs v tr,
    transformElems heap replacer fuel a elems idx visited = some (.ok rs, v, tr) →
    ∀ e ∈ elems, ∃ (j : Nat) (r2 : RVal) (v2 : List Nat) (tr2 : List TEntry),
      transform heap replacer fuel (.container a) (toString j) e visited =
        some (.ok r2, v2, tr2) := by
  intro elems
  induction elems with
  | nil => intro idx visited rs v tr _ e he; exact absurd he (by simp)
  | cons e0 es ih =>
    intro idx visited rs v tr h e he
    rw [transformElems] at h
    split at h
    case _ => exact absurd h (by simp)
    case _ => exact absurd h (by simp)
    case _ r2 v2 tr2 hch =>
      have hv2 : v2 = visited :=
        ((transform_core_inv heap replacer fuel).1 _ _ _ _ _ _ _ hch).1
      split at h
      case _ => exact absurd h (by simp)
      case _ => exact absurd h (by simp)
      case _ rs3 v3 tr3 hrest =>
        rcases List.mem_cons.mp he with rfl | he
        · exact ⟨idx, r2, v2, tr2, hch⟩
        · rw [hv2] at hrest
          exact ih _ _ _ _ _ hrest e he

/-- If the field loop finished successfully, every field value's own transform
call succeeded. -/
theorem transformFields_ok_child (heap : Heap) (replacer : Replacer) (fuel : Nat)
    (a : Nat) : ∀ flds visited rs v tr,
    transformFields heap replacer fuel a flds visited = some (.ok rs, v, tr) →
    ∀ kv ∈ flds, ∃ (r2 : RVal) (v2 : List Nat) (tr2 : List TEntry),
      transform heap replacer fuel (.container a) kv.1 kv.2 visited =
        some (.ok r2, v2, tr2) := by
  intro flds
  induction flds with
  | nil => intro visited rs v tr _ kv hkv; exact absurd hkv (by simp)
  | cons kv0 es ih =>
    intro visited rs v tr h kv hkv
    match kv0 with
    | (k0, e0) =>
    rw [transformFields] at h
    split at h
    case _ => exact absurd h (by simp)
    case _ => exact absurd h (by simp)
    case _ r2 v2 tr2 hch =>
      have hv2 : v2 = visited :=
        ((transform_core_inv heap replacer fuel).1 _ _ _ _ _ _ _ hch).1
      split at h
      case _ => exact absurd h (by simp)
      case _ => exact absurd h (by simp)
      case _ rs3 v3 tr3 hrest =>
        rcases List.mem_cons.mp hkv with rfl | hkv
        · exact ⟨r2, v2, tr2, hch⟩
        · rw [hv2] at hrest
          exact ih _ _ _ _ hrest kv hkv

/-- A value that reaches a container already in the visited set cannot
transform successfully, for any replacer that returns containers unchanged. -/
theorem transform_reaches_visited_not_ok (heap : Heap) (replacer : Replacer)
    (hcont : ∀ c k a, replacer c k (.ref a) = .ref a) {w : JSVal} {b : Nat}
    (hr : Reaches heap w b) :
    ∀ fuel parent key visited, b ∈ visited →
    ∀ r v tr, transform heap replacer fuel parent key w visited ≠ some (.ok r, v, tr) := by
  induction hr with
  | here hget hplain =>
    rename_i a o
    intro fuel parent key visited hbv r v tr h
    match fuel with
    | 0 => rw [transform] at h; exact absurd h (by simp)
    | fuel + 1 =>
      rw [transform] at h
      simp only [hcont, hget] at h
      match o, hplain with
      | .arr elems, _ =>
        simp only [if_pos hbv] at h
        exact absurd (some_triple_inj h).1 (by simp)
      | .obj flds, _ =>
        simp only [if_pos hbv] at h
        exact absurd (some_triple_inj h).1 (by simp)
  | via hget hplain hw hr ih =>
    rename_i a o w' b'
    intro fuel parent key visited hbv r v tr h
    match fuel with
    | 0 => rw [transform] at h; exact absurd h (by simp)
    | fuel + 1 =>
      rw [transform] at h
      simp only [hcont, hget] at h
      match o, hplain, hw with
      | .arr elems, _, hw =>
        by_cases hmem : a ∈ visited
        · simp only [if_pos hmem] at h
          exact absurd (some_triple_inj h).1 (by simp)
        · simp only [if_neg hmem] at h
          split at h
          case _ => exact absurd h (by simp)
          case _ => exact absurd (some_triple_inj h).1 (by simp)
          case _ rs v2 tr2 hE =>
            obtain ⟨j, r2, v2', tr2', hch⟩ :=
              transformElems_ok_child heap replacer fuel a elems 0 (a :: visited)
                rs v2 tr2 hE w' (by simpa [HeapObj.childVals] using hw)
            exact ih fuel (.container a) (toString j) (a :: visited)
              (List.mem_cons_of_mem a hbv) r2 v2' tr2' hch
      | .obj flds, _, hw =>
        by_cases hmem : a ∈ visited
        · simp only [if_pos hmem] at h
          exact absurd (some_triple_inj h).1 (by simp)
        · simp only [if_neg hmem] at h
          split at h
          case _ => exact absurd h (by simp)
          case _ => exact absurd (some_triple_inj h).1 (by simp)
          case _ rs v2 tr2 hF =>
            obtain ⟨kv, hkv, hkvw⟩ : ∃ kv ∈ flds, kv.2 = w' := by
              simp only [HeapObj.childVals, List.mem_map] at hw
              obtain ⟨kv, hkv, hkvw⟩ := hw
              exact ⟨kv, hkv, hkvw⟩
            obtain ⟨r2, v2', tr2', hch⟩ :=
              transformFields_ok_child heap replacer fuel a flds (a :: visited)
                rs v2 tr2 hF kv hkv
            rw [hkvw] at hch
            exact ih fuel (.container a) kv.1 (a :: visited)
              (List.mem_cons_of_mem a hbv) r2 v2' tr2' hch

/-- A value from which a structural cycle of plain containers is reachable
(along hook-free recursion paths) can never transform successfully. -/
theorem transform_hasCycle_not_ok (heap : Heap) (replacer : Replacer)
    (hcont : ∀ c k a, replacer c k (.ref a) = .ref a) {v : JSVal} {b : Nat}
    (hrv : Reaches heap v b) :
    ∀ o : HeapObj, heap.get? b = some o →
    (∃ w ∈ o.childVals, Reaches heap w b) →
    ∀ fuel parent key visited r vv tr,
      transform heap replacer fuel parent key v visited ≠ some (.ok r, vv, tr) := by
  induction hrv with
  | here hget hplain =>
    rename_i a o1
    intro o hgetb hcyc
    obtain ⟨w, hwmem, hwr⟩ := hcyc
    have ho1 : o1 = o := by
      rw [hget] at hgetb
      exact Option.some.inj hgetb
    subst ho1
    intro fuel parent key visited r vv tr h
    match fuel with
    | 0 => rw [transform] at h; exact absurd h (by simp)
    | fuel + 1 =>
      rw [transform] at h
      simp only [hcont, hget] at h
      match o1, hplain, hwmem with
      | .arr elems, _, hwmem =>
        by_cases hmem : a ∈ visited
        · simp only [if_pos hmem] at h
          exact absurd (some_triple_inj h).1 (by simp)
        · simp only [if_neg hmem] at h
          split at h
          case _ => exact absurd h (by simp)
          case _ => exact absurd (some_triple_inj h).1 (by simp)
          case _ rs v2 tr2 hE =>
            obtain ⟨j, r2, v2', tr2', hch⟩ :=
              transformElems_ok_child heap replacer fuel a elems 0 (a :: visited)
                rs v2 tr2 hE w (by simpa [HeapObj.childVals] using hwmem)
            exact transform_reaches_visited_not_ok heap replacer hcont hwr fuel
              (.container a) (toString j) (a :: visited) (List.mem_cons_self a visited)
              r2 v2' tr2' hch
      | .obj flds, _, hwmem =>
        by_cases hmem : a ∈ visited
        · simp only [if_pos hmem] at h
          exact absurd (some_triple_inj h).1 (by simp)
        · simp only [if_neg hmem] at h
          split at h
          case _ => exact absurd h (by simp)
          case _ => exact absurd (some_triple_inj h).1 (by simp)
          case _ rs v2 tr2 hF =>
            obtain ⟨kv, hkv, hkvw⟩ : ∃ kv ∈ flds, kv.2 = w := by
              simp only [HeapObj.childVals, List.mem_map] at hwmem
              obtain ⟨kv, hkv, hkvw⟩ := hwmem
              exact ⟨kv, hkv, hkvw⟩
            obtain ⟨r2, v2', tr2', hch⟩ :=
              transformFields_ok_child heap replacer fuel a flds (a :: visited)
                rs v2 tr2 hF kv hkv
            rw [hkvw] at hch
            exact transform_reaches_visited_not_ok heap replacer hcont hwr fuel
              (.container a) kv.1 (a :: visited) (List.mem_cons_self a visited)
              r2 v2' tr2' hch
  | via hget hplain hw hr ih =>
    rename_i a o2 w' b'
    intro o hgetb hcyc fuel parent key visited r vv tr h
    match fuel with
    | 0 => rw [transform] at h; exact absurd h (by simp)
    | fuel + 1 =>
      rw [transform] at h
      simp only [hcont, hget] at h
      match o2, hplain, hw with
      | .arr elems, _, hw =>
        by_cases hmem : a ∈ visited
        · simp only [if_pos hmem] at h
          exact absurd (some_triple_inj h).1 (by simp)
        · simp only [if_neg hmem] at h
          split at h
          case _ => exact absurd h (by simp)
          case _ => exact absurd (some_triple_inj h).1 (by simp)
          case _ rs v2 tr2 hE =>
            obtain ⟨j, r2, v2', tr2', hch⟩ :=
              transformElems_ok_child heap replacer fuel a elems 0 (a :: visited)
                rs v2 tr2 hE w' (by simpa [HeapObj.childVals] using hw)
            exact ih o hgetb hcyc fuel (.container a) (toString j) (a :: visited) r2 v2' tr2' hch
      | .obj flds, _, hw =>
        by_cases hmem : a ∈ visited
        · simp only [if_pos hmem] at h
          exact absurd (some_triple_inj h).1 (by simp)
        · simp only [if_neg hmem] at h
          split at h
          case _ => exact absurd h (by simp)
          case _ => exact absurd (some_triple_inj h).1 (by simp)
          case _ rs v2 tr2 hF =>
            obtain ⟨kv, hkv, hkvw⟩ : ∃ kv ∈ flds, kv.2 = w' := by
              simp only [HeapObj.childVals, List.mem_map] at hw
              obtain ⟨kv, hkv, hkvw⟩ := hw
              exact ⟨kv, hkv, hkvw⟩
            obtain ⟨r2, v2', tr2', hch⟩ :=
              transformFields_ok_child heap replacer fuel a flds (a :: visited)
                rs v2 tr2 hF kv hkv
            rw [hkvw] at hch
            exact ih o hgetb hcyc fuel (.container a) kv.1 (a :: visited) r2 v2' tr2' hch

/-- Every value a replacer invocation is given is either the value of the
call itself or a child of some heap container. -/
theorem transform_trace_vals (heap : Heap) (replacer : Replacer) : ∀ fuel,
    (∀ parent key val visited res v' tr,
      transform heap replacer fuel parent key val visited = some (res, v', tr) →
        ∀ e ∈ tr, e.val = val ∨ ∃ a o, heap.get? a = some o ∧ e.val ∈ o.childVals) ∧
    (∀ a elems idx visited res v' tr,
      transformElems heap replacer fuel a elems idx visited = some (res, v', tr) →
        ∀ e ∈ tr, e.val ∈ elems ∨ ∃ a2 o, heap.get? a2 = some o ∧ e.val ∈ o.childVals) ∧
    (∀ a flds visited res v' tr,
      transformFields heap replacer fuel a flds visited = some (res, v', tr) →
        ∀ e ∈ tr, e.val ∈ flds.map Prod.snd ∨
          ∃ a2 o, heap.get? a2 = some o ∧ e.val ∈ o.childVals) := by
  intro fuel
  induction fuel with
  | zero =>
    refine ⟨?_, ?_, ?_⟩
    · intro parent key val visited res v' tr h
      rw [transform] at h
      exact absurd h (by simp)
    · intro a elems idx visited res v' tr h
      match elems with
      | [] =>
        rw [transformElems] at h
        obtain ⟨h1, h2, h3⟩ := some_triple_inj h
        subst h3
        simp
      | e :: es =>
        rw [transformElems, transform] at h
        exact absurd h (by simp)
    · intro a flds visited res v' tr h
      match flds with
      | [] =>
        rw [transformFields] at h
        obtain ⟨h1, h2, h3⟩ := some_triple_inj h
        subst h3
        simp
      | (k, e) :: es =>
        rw [transformFields, transform] at h
        exact absurd h (by simp)
  | succ n ih =>
    obtain ⟨ihT, ihE, ihF⟩ := ih
    have hT : ∀ parent key val visited res v' tr,
        transform heap replacer (n + 1) parent key val visited = some (res, v', tr) →
          ∀ e ∈ tr, e.val = val ∨ ∃ a o, heap.get? a = some o ∧ e.val ∈ o.childVals := by
      intro parent key val visited res v' tr h e he
      rw [transform] at h
      split at h
      case _ m heq =>
        obtain ⟨h1, h2, h3⟩ := some_triple_inj h
        subst h3
        simp at he
        subst he
        exact Or.inl rfl
      case _ heq =>
        obtain ⟨h1, h2, h3⟩ := some_triple_inj h
        subst h3
        simp at he
        subst he
        exact Or.inl rfl
      case _ heq =>
        obtain ⟨h1, h2, h3⟩ := some_triple_inj h
        subst h3
        simp at he
        subst he
        exact Or.inl rfl
      case _ b heq =>
        obtain ⟨h1, h2, h3⟩ := some_triple_inj h
        subst h3
        simp at he
        subst he
        exact Or.inl rfl
      case _ m heq =>
        obtain ⟨h1, h2, h3⟩ := some_triple_inj h
        subst h3
        simp at he
        subst he
        exact Or.inl rfl
      case _ s heq =>
        obtain ⟨h1, h2, h3⟩ := some_triple_inj h
        subst h3
        simp at he
        subst he
        exact Or.inl rfl
      case _ i heq =>
        obtain ⟨h1, h2, h3⟩ := some_triple_inj h
        subst h3
        simp at he
        subst he
        exact Or.inl rfl
      case _ a heq =>
        split at h
        case _ hget =>
          obtain ⟨h1, h2, h3⟩ := some_triple_inj h
          subst h3
          simp at he
          subst he
          exact Or.inl rfl
        case _ r hget =>
          obtain ⟨h1, h2, h3⟩ := some_triple_inj h
          subst h3
          simp at he
          subst he
          exact Or.inl rfl
        case _ elems hget =>
          split at h
          case isTrue hmem =>
            obtain ⟨h1, h2, h3⟩ := some_triple_inj h
            subst h3
            simp at he
            subst he
            exact Or.inl rfl
          case isFalse hmem =>
            split at h
            case _ => exact absurd h (by simp)
            case _ err v2 tr2 hE =>
              obtain ⟨h1, h2, h3⟩ := some_triple_inj h
              subst h3
              rcases List.mem_cons.mp he with rfl | he
              · exact Or.inl rfl
              · rcases ihE _ _ _ _ _ _ _ hE e he with hv | hv
                · exact Or.inr ⟨a, .arr elems, hget, by simpa [HeapObj.childVals] using hv⟩
                · exact Or.inr hv
            case _ rs v2 tr2 hE =>
              obtain ⟨h1, h2, h3⟩ := some_triple_inj h
              subst h3
              rcases List.mem_cons.mp he with rfl | he
              · exact Or.inl rfl
              · rcases ihE _ _ _ _ _ _ _ hE e he with hv | hv
                · exact Or.inr ⟨a, .arr elems, hget, by simpa [HeapObj.childVals] using hv⟩
                · exact Or.inr hv
        case _ flds hget =>
          split at h
          case isTrue hmem =>
            obtain ⟨h1, h2, h3⟩ := some_triple_inj h
            subst h3
            simp at he
            subst he
            exact Or.inl rfl
          case isFalse hmem =>
            split at h
            case _ => exact absurd h (by simp)
            case _ err v2 tr2 hF =>
              obtain ⟨h1, h2, h3⟩ := some_triple_inj h
              subst h3
              rcases List.mem_cons.mp he with rfl | he
              · exact Or.inl rfl
              · rcases ihF _ _ _ _ _ _ hF e he with hv | hv
                · exact Or.inr ⟨a, .obj flds, hget, by simpa [HeapObj.childVals] using hv⟩
                · exact Or.inr hv
            case _ rs v2 tr2 hF =>
              obtain ⟨h1, h2, h3⟩ := some_triple_inj h
              subst h3
              rcases List.mem_cons.mp he with rfl | he
              · exact Or.inl rfl
              · rcases ihF _ _ _ _ _ _ hF e he with hv | hv
                · exact Or.inr ⟨a, .obj flds, hget, by simpa [HeapObj.childVals] using hv⟩
                · exact Or.inr hv
    have hE : ∀ a elems idx visited res v' tr,
        transformElems heap replacer (n + 1) a elems idx visited = some (res, v', tr) →
          ∀ e ∈ tr, e.val ∈ elems ∨
            ∃ a2 o, heap.get? a2 = some o ∧ e.val ∈ o.childVals := by
      intro a elems
      induction elems with
      | nil =>
        intro idx visited res v' tr h e he
        rw [transformElems] at h
        obtain ⟨h1, h2, h3⟩ := some_triple_inj h
        subst h3
        exact absurd he (by simp)
      | cons e0 es ihes =>
        intro idx visited res v' tr h e he
        rw [transformElems] at h
        split at h
        case _ => exact absurd h (by simp)
        case _ err v2 tr2 hch =>
          obtain ⟨h1, h2, h3⟩ := some_triple_inj h
          subst h3
          rcases hT _ _ _ _ _ _ _ hch e he with hv | hv
          · exact Or.inl (by simp [hv])
          · exact Or.inr hv
        case _ r v2 tr2 hch =>
          split at h
          case _ => exact absurd h (by simp)
          case _ err v3 tr3 hrest =>
            obtain ⟨h1, h2, h3⟩ := some_triple_inj h
            subst h3
            rcases List.mem_append.mp he with he | he
            · rcases hT _ _ _ _ _ _ _ hch e he with hv | hv
              · exact Or.inl (by simp [hv])
              · exact Or.inr hv
            · rcases ihes _ _ _ _ _ hrest e he with hv | hv
              · exact Or.inl (List.mem_cons_of_mem _ hv)
              · exact Or.inr hv
          case _ rs v3 tr3 hrest =>
            obtain ⟨h1, h2, h3⟩ := some_triple_inj h
            subst h3
            rcases List.mem_append.mp he with he | he
            · rcases hT _ _ _ _ _ _ _ hch e he with hv | hv
              · exact Or.inl (by simp [hv])
              · exact Or.inr hv
            · rcases ihes _ _ _ _ _ hrest e he with hv | hv
              · exact Or.inl (List.mem_cons_of_mem _ hv)
              · exact Or.inr hv
    have hF : ∀ a flds visited res v' tr,
        transformFields heap replacer (n + 1) a flds visited = some (res, v', tr) →
          ∀ e ∈ tr, e.val ∈ flds.map Prod.snd ∨
            ∃ a2 o, heap.get? a2 = some o ∧ e.val ∈ o.childVals := by
      intro a flds
      induction flds with
      | nil =>
        intro visited res v' tr h e he
        rw [transformFields] at h
        obtain ⟨h1, h2, h3⟩ := some_triple_inj h
        subst h3
        exact absurd he (by simp)
      | cons kv es ihes =>
        intro visited res v' tr h e he
        match kv with
        | (k0, e0) =>
        rw [transformFields] at h
        split at h
        case _ => exact absurd h (by simp)
        case _ err v2 tr2 hch =>
          obtain ⟨h1, h2, h3⟩ := some_triple_inj h
          subst h3
          rcases hT _ _ _ _ _ _ _ hch e he with hv | hv
          · exact Or.inl (by simp [hv])
          · exact Or.inr hv
        case _ r v2 tr2 hch =>
          split at h
          case _ => exact absurd h (by simp)
          case _ err v3 tr3 hrest =>
            obtain ⟨h1, h2, h3⟩ := some_triple_inj h
            subst h3
            rcases List.mem_append.mp he with he | he
            · rcases hT _ _ _ _ _ _ _ hch e he with hv | hv
              · exact Or.inl (by simp [hv])
              · exact Or.inr hv
            · rcases ihes _ _ _ _ hrest e he with hv | hv
              · exact Or.inl (by simpa using Or.inr (by simpa using hv))
              · exact Or.inr hv
          case _ rs v3 tr3 hrest =>
            obtain ⟨h1, h2, h3⟩ := some_triple_inj h
            subst h3
            rcases List.mem_append.mp he with he | he
            · rcases hT _ _ _ _ _ _ _ hch e he with hv | hv
              · exact Or.inl (by simp [hv])
              · exact Or.inr hv
            · rcases ihes _ _ _ _ hrest e he with hv | hv
              · exact Or.inl (by simpa using Or.inr (by simpa using hv))
              · exact Or.inr hv
    exact ⟨hT, hE, hF⟩

/-!
Claim C2.  As stated, the claim fails: an unrepresentable `bigint` met earlier
in the traversal masks the cycle, so the call fails with the BigInt
`TypeError` instead of the circular-structure one.  The amended claim adds
that no replacer invocation returns a `bigint`.
-/

/-- Claim C2, counterexample: the heap `[arr [bigint 1, ref 0]]` contains a
plain container that is its own descendant on a single (hook-free) recursion
path and the identity transform returns containers unchanged, yet the call
fails with the BigInt error, not the circular-reference one. -/
theorem asyncStringify_cycle_counterexample :
    HasCycle [HeapObj.arr [JSVal.bigint 1, JSVal.ref 0]] (JSVal.ref 0) ∧
    asyncStringify [HeapObj.arr [JSVal.bigint 1, JSVal.ref 0]] idReplacer
      (JSVal.ref 0) .absent 10 = some (.error .bigIntError) ∧
    JSError.bigIntError ≠ JSError.circularError := by
  refine ⟨⟨0, _, Reaches.here rfl rfl, rfl,
    ⟨.ref 0, by simp [HeapObj.childVals], Reaches.here rfl rfl⟩⟩, ?_, by simp⟩
  simp [asyncStringify, transform, transformElems, idReplacer]

/-- Claim C2, amended: if additionally no `bigint` value occurs in the input
(neither the root nor any container child is a `bigint`) and the transform
introduces no `bigint`, then an input in which a plain container is reachable
as its own descendant along a single hook-free recursion path fails with the
circular-structure `TypeError`, regardless of depth, producing no output. -/
theorem asyncStringify_cycle_circular (heap : Heap) (replacer : Replacer)
    (v : JSVal) (space : Space) (fuel : Nat)
    (hcont : ∀ c k a, replacer c k (.ref a) = .ref a)
    (hroot : ∀ m, v ≠ .bigint m)
    (hvals : ∀ a o, heap.get? a = some o → ∀ w ∈ o.childVals, ∀ m, w ≠ .bigint m)
    (hpres : ∀ c k w m, replacer c k w = .bigint m → ∃ m2, w = .bigint m2)
    (hcyc : HasCycle heap v)
    (hfuel : heap.length < fuel) :
    asyncStringify heap replacer v space fuel = some (.error .circularError) := by
  obtain ⟨b, o, hrv, hgetb, hcycw⟩ := hcyc
  have hsome := (transform_fuel heap replacer fuel).1 (.root v) "" v []
    (by simp) (by simp) (by simpa)
  rcases hres : transform heap replacer fuel (.root v) "" v [] with _ | ⟨res, v', tr⟩
  · exact absurd hres hsome
  · cases res with
    | ok t =>
      exact absurd hres
        (transform_hasCycle_not_ok heap replacer hcont hrv o hgetb hcycw fuel _ _ _ _ _ _)
    | error e =>
      cases e with
      | circularError => rw [asyncStringify, hres]
      | bigIntError =>
        have hiff := ((transform_core_inv heap replacer fuel).1 _ _ _ _ _ _ _ hres).2.2
        obtain ⟨en, hen, m, hm⟩ := hiff.mpr rfl
        obtain ⟨m2, hval⟩ := hpres _ _ _ _ hm
        rcases (transform_trace_vals heap replacer fuel).1 _ _ _ _ _ _ _ hres en hen
          with hv | ⟨a, o2, hget, hmem⟩
        · rw [hv] at hval
          exact absurd hval (hroot m2)
        · rw [hval] at hmem
          exact absurd rfl (hvals a o2 hget _ hmem m2)

/-- Witness for the amended claim C2 at the specification's own scenario
`\x7ba:\x7bb:\x7bc:(reference to a)\x7d\x7d\x7d` with the identity
transform: the cycle closes at depth three, the call fails circular. -/
theorem asyncStringify_cycle_circular_witness :
    asyncStringify [.obj [("a", .ref 1)], .obj [("b", .ref 2)], .obj [("c", .ref 0)]]
      idReplacer (.ref 0) .absent 10 = some (.error .circularError) := by
  refine asyncStringify_cycle_circular _ idReplacer _ _ _
    (fun _ _ _ => rfl) (fun m h => JSVal.noConfusion h) ?_
    (fun c k w m h => ⟨m, h⟩) ?_ (by norm_num)
  · intro a o hget w hw m
    rcases a with _ | _ | _ | n <;> simp_all [HeapObj.childVals] <;>
      subst hget <;> simp_all [HeapObj.childVals]
  · have h0 : Reaches [.obj [("a", .ref 1)], .obj [("b", .ref 2)], .obj [("c", .ref 0)]]
        (JSVal.ref 0) 0 := Reaches.here rfl rfl
    have h2 : Reaches [.obj [("a", .ref 1)], .obj [("b", .ref 2)], .obj [("c", .ref 0)]]
        (JSVal.ref 2) 0 :=
      Reaches.via rfl rfl (by simp [HeapObj.childVals]) h0
    have h1 : Reaches [.obj [("a", .ref 1)], .obj [("b", .ref 2)], .obj [("c", .ref 0)]]
        (JSVal.ref 1) 0 :=
      Reaches.via rfl rfl (by simp [HeapObj.childVals]) h2
    exact ⟨0, .obj [("a", .ref 1)], Reaches.here rfl rfl, rfl,
      ⟨.ref 1, by simp [HeapObj.childVals], h1⟩⟩

/-!
Claim C3: whenever some performed replacer invocation returns a `bigint`
(at any depth, the root included), the whole call fails with the BigInt
`TypeError` — the error of the model that stands for
`TypeError("Do not know how to serialize a BigInt")`.
-/

/-- Claim C3: if the run of `transform` underlying a top-level call performed
an invocation that returned a `bigint`, the transform result, and with it the
whole `asyncStringify` call, is the BigInt `TypeError`. -/
theorem asyncStringify_bigint_fails (heap : Heap) (replacer : Replacer)
    (v : JSVal) (space : Space) (fuel : Nat) (res : Except JSError RVal)
    (v' : List Nat) (tr : List TEntry)
    (hrun : transform heap replacer fuel (.root v) "" v [] = some (res, v', tr))
    (hbig : ∃ e ∈ tr, ∃ m, replacer e.ctx e.key e.val = .bigint m) :
    res = .error .bigIntError ∧
    asyncStringify heap replacer v space fuel = some (.error .bigIntError) := by
  have h1 : res = .error .bigIntError :=
    ((transform_core_inv heap replacer fuel).1 _ _ _ _ _ _ _ hrun).2.2.mp
      (by simpa [bigEntry] using hbig)
  subst h1
  refine ⟨rfl, ?_⟩
  rw [asyncStringify, hrun]

/-- Witness for claim C3: the root value is a `bigint`; the identity replacer
returns it and the call fails with the BigInt error. -/
theorem asyncStringify_bigint_fails_witness :
    asyncStringify [] idReplacer (.bigint 5) .absent 1 = some (.error .bigIntError) :=
  (asyncStringify_bigint_fails [] idReplacer (.bigint 5) .absent 1
    (.error .bigIntError) [] [⟨.root (.bigint 5), "", .bigint 5⟩]
    (by simp [transform, idReplacer])
    ⟨⟨.root (.bigint 5), "", .bigint 5⟩, by simp, 5, rfl⟩).2

/-!
Claim C4: the visited set holds exactly the containers on the active
recursion path.  In the embedding the set passed to the children of a
container at address `a` is by construction `a :: visited`; the substantial
half is that every call, including every failing one, hands its caller back
exactly the visited set it received, so membership never leaks across sibling
branches.  A diamond (one container reachable through two siblings) therefore
serializes successfully twice.
-/

/-- Claim C4: (1) every `transform` call — succeeding or failing — returns
the visited set it received, the `try/finally` add/remove discipline; (2) the
diamond heap, whose shared container is reachable through both keys of the
root, serializes successfully with the shared object rendered twice. -/
theorem visited_ancestor_discipline :
    (∀ (heap : Heap) (replacer : Replacer) (fuel : Nat) (parent : Ctx)
      (key : String) (val : JSVal) (visited : List Nat)
      (res : Except JSError RVal) (v' : List Nat) (tr : List TEntry),
      transform heap replacer fuel parent key val visited = some (res, v', tr) →
      v' = visited) ∧
    asyncStringify [.obj [("l", .ref 1), ("r", .ref 1)], .obj [("x", .num 1)]]
      idReplacer (.ref 0) .absent 10 =
      some (.ok (some "\x7b\"l\":\x7b\"x\":1\x7d,\"r\":\x7b\"x\":1\x7d\x7d")) := by
  constructor
  · intro heap replacer fuel parent key val visited res v' tr h
    exact ((transform_core_inv heap replacer fuel).1 _ _ _ _ _ _ _ h).1
  · simp [asyncStringify, transform, transformElems, transformFields, jsonEval,
      jsonEvalElems, jsonEvalFields, renderTree, renderElems, renderMembers,
      renderTop, gapOf, quoteJson, escapeChar, idReplacer, RVal.ofVal,
      removeFirst, String.intercalate, List.intersperse]
    decide

/-- Witness for claim C4 at a failing child: transforming the self-referential
array errors, yet the returned visited set is the empty set the call started
from. -/
theorem visited_ancestor_discipline_witness :
    ([] : List Nat) = [] :=
  visited_ancestor_discipline.1 [.arr [.ref 0]] idReplacer 5 (.root (.ref 0))
    "" (.ref 0) [] (.error .circularError) []
    [⟨.root (.ref 0), "", .ref 0⟩, ⟨.container 0, "0", .ref 0⟩]
    (by simp [transform, transformElems, idReplacer, removeFirst]; decide)

/-!
Claim C5: a `toJSON` hook short-circuits everything: its result is returned
as-is, with no recursion into it, no cycle check (the theorem holds even when
the hook container is already in the visited set), no unrepresentable-scalar
check on the result, and no further replacer invocation (the trace is the
single entry of the call itself).
-/

/-- Claim C5: when the replaced value is a container with a serialization
hook, `transform` returns the hook result unchanged, leaves the visited set
untouched, performs no cycle or bigint check on the result, and invokes the
replacer on nothing below this node. -/
theorem transform_hook_short_circuit (heap : Heap) (replacer : Replacer)
    (fuel : Nat) (parent : Ctx) (key : String) (val : JSVal) (visited : List Nat)
    (a : Nat) (r : JSVal)
    (hrep : replacer parent key val = .ref a)
    (hget : heap.get? a = some (.hook r)) :
    transform heap replacer (fuel + 1) parent key val visited =
      some (.ok (RVal.ofVal r), visited, [⟨parent, key, val⟩]) := by
  rw [transform]
  simp only [hrep, hget]

/-- Witness for claim C5: the hook container is already in the visited set
(it is its own ancestor) and its result is even a `bigint`; the hook result is
still returned as-is with no failure and no recursion. -/
theorem transform_hook_short_circuit_witness :
    transform [.hook (.bigint 7)] idReplacer 3 (.container 0) "x" (.ref 0) [0] =
      some (.ok (RVal.ofVal (.bigint 7)), [0], [⟨.container 0, "x", .ref 0⟩]) :=
  transform_hook_short_circuit [.hook (.bigint 7)] idReplacer 2 (.container 0)
    "x" (.ref 0) [0] 0 (.bigint 7) rfl rfl

/-!
Claims C6 and C7: object members whose value serializes to undefined
(an `undefined` value or a function reference) are omitted; array slots never
are — they become `null`, preserving index alignment.
-/


theorem jsonEvalFields_undef_skip (heap : Heap) (f : Nat) (stack : List Nat)
    (k : String) : ∀ flds1 flds2 : List (String × RVal),
    jsonEvalFields heap (f + 1) stack (flds1 ++ (k, RVal.undef) :: flds2) =
      jsonEvalFields heap (f + 1) stack (flds1 ++ flds2) := by
  intro flds1
  induction flds1 with
  | nil =>
    intro flds2
    simp only [List.nil_append]
    rw [jsonEvalFields, jsonEval]
    cases h : jsonEvalFields heap (f + 1) stack flds2 with
    | none => simp
    | some r => cases r <;> simp
  | cons kv rest ih =>
    intro flds2
    simp only [List.cons_append]
    match kv with
    | (k0, r0) =>
    rw [jsonEvalFields]
    conv_rhs => rw [jsonEvalFields]
    rw [ih]

theorem jsonEvalFields_func_skip (heap : Heap) (f : Nat) (stack : List Nat)
    (k : String) (i : Nat) : ∀ flds1 flds2 : List (String × RVal),
    jsonEvalFields heap (f + 1) stack (flds1 ++ (k, RVal.func i) :: flds2) =
      jsonEvalFields heap (f + 1) stack (flds1 ++ flds2) := by
  intro flds1
  induction flds1 with
  | nil =>
    intro flds2
    simp only [List.nil_append]
    rw [jsonEvalFields, jsonEval]
    cases h : jsonEvalFields heap (f + 1) stack flds2 with
    | none => simp
    | some r => cases r <;> simp
  | cons kv rest ih =>
    intro flds2
    simp only [List.cons_append]
    match kv with
    | (k0, r0) =>
    rw [jsonEvalFields]
    conv_rhs => rw [jsonEvalFields]
    rw [ih]

theorem jsonEvalElems_length_null (heap : Heap) (fuel : Nat) (stack : List Nat) :
    ∀ (rs : List RVal) (ts : List JsonTree),
      jsonEvalElems heap fuel stack rs = some (.ok ts) →
      ts.length = rs.length ∧
      ∀ i, (rs.get? i = some RVal.undef ∨ ∃ j, rs.get? i = some (RVal.func j)) →
        ts.get? i = some JsonTree.null := by
  intro rs
  induction rs with
  | nil =>
    intro ts h
    rw [jsonEvalElems] at h
    obtain rfl : ([] : List JsonTree) = ts := by simpa using h
    exact ⟨rfl, by simp⟩
  | cons r rest ih =>
    intro ts h
    rw [jsonEvalElems] at h
    split at h
    case _ => exact absurd h (by simp)
    case _ => exact absurd h (by simp)
    case _ t heq =>
      split at h
      case _ => exact absurd h (by simp)
      case _ => exact absurd h (by simp)
      case _ ts2 heq2 =>
        obtain rfl : t.getD .null :: ts2 = ts := by simpa using h
        obtain ⟨hlen, hnull⟩ := ih ts2 heq2
        refine ⟨by simp [hlen], ?_⟩
        intro i hi
        match i with
        | 0 =>
          simp only [List.get?_cons_zero, Option.some.injEq] at hi
          have ht : t = none := by
            rcases hi with hi | ⟨j, hi⟩
            · subst hi
              match fuel, heq with
              | 0, heq => rw [jsonEval] at heq; exact absurd heq (by simp)
              | f + 1, heq =>
                rw [jsonEval] at heq
                simpa using (Option.some.inj heq).symm
            · subst hi
              match fuel, heq with
              | 0, heq => rw [jsonEval] at heq; exact absurd heq (by simp)
              | f + 1, heq =>
                rw [jsonEval] at heq
                simpa using (Option.some.inj heq).symm
          subst ht
          simp
        | i + 1 =>
          simp only [List.get?_cons_succ] at hi ⊢
          exact hnull i hi

/-- Claim C6: for keyed containers, a member whose resolved value is undefined
or a function reference is omitted from the rendered output entirely — the
member list with such a field evaluates exactly as the list without it — and
the scenario `\x7bpublic:"visible",private:"hidden"\x7d` with a transform
mapping `"private"` to undefined renders as exactly
`\x7b"public":"visible"\x7d`. -/
theorem keyed_undefined_key_omitted :
    (∀ (heap : Heap) (f : Nat) (stack : List Nat) (k : String)
      (flds1 flds2 : List (String × RVal)),
      jsonEvalFields heap (f + 1) stack (flds1 ++ (k, RVal.undef) :: flds2) =
        jsonEvalFields heap (f + 1) stack (flds1 ++ flds2)) ∧
    (∀ (heap : Heap) (f : Nat) (stack : List Nat) (k : String) (i : Nat)
      (flds1 flds2 : List (String × RVal)),
      jsonEvalFields heap (f + 1) stack (flds1 ++ (k, RVal.func i) :: flds2) =
        jsonEvalFields heap (f + 1) stack (flds1 ++ flds2)) ∧
    asyncStringify [.obj [("public", .str "visible"), ("private", .str "hidden")]]
      privReplacer (.ref 0) .absent 10 =
      some (.ok (some "\x7b\"public\":\"visible\"\x7d")) := by
  refine ⟨fun heap f stack k flds1 flds2 =>
      jsonEvalFields_undef_skip heap f stack k flds1 flds2,
    fun heap f stack k i flds1 flds2 =>
      jsonEvalFields_func_skip heap f stack k i flds1 flds2, ?_⟩
  simp [asyncStringify, transform, transformFields, jsonEval, jsonEvalFields,
    renderTree, renderMembers, renderTop, gapOf, quoteJson, escapeChar,
    privReplacer, RVal.ofVal, removeFirst, String.intercalate, List.intersperse]
  decide

/-- Claim C7: for sequence containers every index keeps its slot: the
rendered element list has the same length as the resolved one, a slot whose
value is undefined (also the reading of an absent sparse slot) or a function
renders as `null`, and the scenario `[1, (absent slot), 3]` with the identity
transform renders as exactly `[1,null,3]`. -/
theorem sequence_null_alignment :
    (∀ (heap : Heap) (fuel : Nat) (stack : List Nat) (rs : List RVal)
      (ts : List JsonTree),
      jsonEvalElems heap fuel stack rs = some (.ok ts) →
      ts.length = rs.length ∧
      ∀ i, (rs.get? i = some RVal.undef ∨ ∃ j, rs.get? i = some (RVal.func j)) →
        ts.get? i = some JsonTree.null) ∧
    asyncStringify [.arr [.num 1, .undef, .num 3]] idReplacer (.ref 0) .absent 10 =
      some (.ok (some "[1,null,3]")) := by
  refine ⟨fun heap fuel stack rs ts h =>
      jsonEvalElems_length_null heap fuel stack rs ts h, ?_⟩
  simp [asyncStringify, transform, transformElems, jsonEval, jsonEvalElems,
    renderTree, renderElems, renderTop, gapOf, quoteJson, escapeChar,
    idReplacer, RVal.ofVal, removeFirst, String.intercalate, List.intersperse]
  decide

/-- Witness for claim C7: a one-slot sequence holding undefined renders that
slot as `null`. -/
theorem sequence_null_alignment_witness :
    ([JsonTree.null] : List JsonTree).get? 0 = some JsonTree.null :=
  (sequence_null_alignment.1 [] 1 [] [RVal.undef] [JsonTree.null]
    (by rw [jsonEvalElems, jsonEval, jsonEvalElems]; rfl)).2 0 (Or.inl rfl)


/-!
Claim C9: the top-level call invokes the replacer first — and, on the root,
only — with the synthetic root holder as `this` and the empty key, and it
resolves to undefined (rather than rejecting or returning text) whenever the
resolved root is undefined or a function reference.
-/

/-- Claim C9: (1) the replacer-invocation trace of the top-level run starts
with the invocation on the root — `this` the synthetic holder of the root
value, key `""`, value the root — and every other invocation has a container
as `this`, so the root invocation happens exactly once; (2) whenever the
resolved root value — the transform's result, whether it came from the
replacer directly or from a serialization hook — is undefined or a function
reference, `asyncStringify` resolves to undefined (`none`), not to text and
not to an error. -/
theorem root_entry_behavior :
    (∀ (heap : Heap) (replacer : Replacer) (v : JSVal) (fuel : Nat)
      (res : Except JSError RVal) (v' : List Nat) (tr : List TEntry),
      transform heap replacer fuel (.root v) "" v [] = some (res, v', tr) →
      ∃ rest, tr = ⟨.root v, "", v⟩ :: rest ∧
        ∀ e ∈ rest, ∃ a, e.ctx = Ctx.container a) ∧
    (∀ (heap : Heap) (replacer : Replacer) (v : JSVal) (space : Space) (fuel : Nat)
      (t : RVal) (v' : List Nat) (tr : List TEntry),
      transform heap replacer fuel (.root v) "" v [] = some (.ok t, v', tr) →
      (t = RVal.undef ∨ ∃ i, t = RVal.func i) →
      asyncStringify heap replacer v space fuel = some (.ok none)) := by
  constructor
  · intro heap replacer v fuel res v' tr h
    exact ((transform_core_inv heap replacer fuel).1 _ _ _ _ _ _ _ h).2.1
  · intro heap replacer v space fuel t v' tr hrun ht
    obtain ⟨f, rfl⟩ : ∃ f, fuel = f + 1 := by
      cases fuel with
      | zero => rw [transform] at hrun; exact absurd hrun (by simp)
      | succ f => exact ⟨f, rfl⟩
    rcases ht with rfl | ⟨i, rfl⟩ <;>
      · rw [asyncStringify]
        simp only [hrun]
        rw [jsonEval]
        rfl

/-- Witness for claim C9: a trace starting with the root invocation, and a
root resolved to undefined through a serialization hook (heap `[hook undef]`
under the identity replacer) making the call resolve to undefined. -/
theorem root_entry_behavior_witness :
    (∃ rest, [(⟨.root .undef, "", .undef⟩ : TEntry)] = ⟨.root .undef, "", .undef⟩ :: rest ∧
      ∀ e ∈ rest, ∃ a, e.ctx = Ctx.container a) ∧
    asyncStringify [.hook .undef] idReplacer (.ref 0) .absent 3 = some (.ok none) :=
  ⟨root_entry_behavior.1 [] idReplacer .undef 3 (.ok .undef) []
      [⟨.root .undef, "", .undef⟩] (by simp [transform, idReplacer]),
   root_entry_behavior.2 [.hook .undef] idReplacer (.ref 0) .absent 3
      RVal.undef [] [⟨.root (.ref 0), "", .ref 0⟩]
      (by simp [transform, idReplacer, RVal.ofVal]) (Or.inl rfl)⟩

/-!
Claim C10: termination.  The transform recursion depth is bounded by the
number of distinct container references (fuel `heap.length + 1` never runs
out from an empty visited set), the resolved tree is correspondingly shallow,
and the final render also terminates, so the whole call always settles.
-/

theorem transform_rdepth (heap : Heap) (replacer : Replacer) : ∀ fuel,
    (∀ parent key val visited t v' tr, visited.Nodup →
      (∀ x ∈ visited, x < heap.length) →
      transform heap replacer fuel parent key val visited = some (.ok t, v', tr) →
      rdepth t ≤ heap.length - visited.length + 1) ∧
    (∀ a elems idx visited rs v' tr, visited.Nodup →
      (∀ x ∈ visited, x < heap.length) →
      transformElems heap replacer fuel a elems idx visited = some (.ok rs, v', tr) →
      rdepthList rs ≤ heap.length - visited.length + 1) ∧
    (∀ a flds visited rs v' tr, visited.Nodup →
      (∀ x ∈ visited, x < heap.length) →
      transformFields heap replacer fuel a flds visited = some (.ok rs, v', tr) →
      rdepthFields rs ≤ heap.length - visited.length + 1) := by
  intro fuel
  induction fuel with
  | zero =>
    refine ⟨?_, ?_, ?_⟩
    · intro parent key val visited t v' tr _ _ h
      rw [transform] at h
      exact absurd h (by simp)
    · intro a elems idx visited rs v' tr _ _ h
      match elems with
      | [] =>
        rw [transformElems] at h
        obtain ⟨h1, h2, h3⟩ := some_triple_inj h
        have : ([] : List RVal) = rs := by simpa using h1
        subst this
        simp [rdepthList]
      | e :: es =>
        rw [transformElems, transform] at h
        exact absurd h (by simp)
    · intro a flds visited rs v' tr _ _ h
      match flds with
      | [] =>
        rw [transformFields] at h
        obtain ⟨h1, h2, h3⟩ := some_triple_inj h
        have : ([] : List (String × RVal)) = rs := by simpa using h1
        subst this
        simp [rdepthFields]
      | (k, e) :: es =>
        rw [transformFields, transform] at h
        exact absurd h (by simp)
  | succ n ih =>
    obtain ⟨ihT, ihE, ihF⟩ := ih
    have hT : ∀ parent key val visited t v' tr, visited.Nodup →
        (∀ x ∈ visited, x < heap.length) →
        transform heap replacer (n + 1) parent key val visited = some (.ok t, v', tr) →
        rdepth t ≤ heap.length - visited.length + 1 := by
      intro parent key val visited t v' tr hnd hb h
      rw [transform] at h
      split at h
      case _ => exact absurd (some_triple_inj h).1 (by simp)
      case _ =>
        obtain rfl : RVal.null = t := by simpa using (some_triple_inj h).1
        simp [rdepth]
      case _ =>
        obtain rfl : RVal.undef = t := by simpa using (some_triple_inj h).1
        simp [rdepth]
      case _ b heq =>
        obtain rfl : RVal.bool b = t := by simpa using (some_triple_inj h).1
        simp [rdepth]
      case _ m heq =>
        obtain rfl : RVal.num m = t := by simpa using (some_triple_inj h).1
        simp [rdepth]
      case _ s heq =>
        obtain rfl : RVal.str s = t := by simpa using (some_triple_inj h).1
        simp [rdepth]
      case _ i heq =>
        obtain rfl : RVal.func i = t := by simpa using (some_triple_inj h).1
        simp [rdepth]
      case _ a heq =>
        split at h
        case _ hget =>
          obtain rfl : RVal.ref a = t := by simpa using (some_triple_inj h).1
          simp [rdepth]
        case _ r hget =>
          obtain rfl : RVal.ofVal r = t := by simpa using (some_triple_inj h).1
          rw [rdepth_ofVal]
          omega
        case _ elems hget =>
          split at h
          case isTrue => exact absurd (some_triple_inj h).1 (by simp)
          case isFalse hmem =>
            split at h
            case _ => exact absurd h (by simp)
            case _ => exact absurd (some_triple_inj h).1 (by simp)
            case _ rs v2 tr2 hE =>
              obtain rfl : RVal.arr rs = t := by simpa using (some_triple_inj h).1
              have ha : a < heap.length := get?_lt_length hget
              have hnd' : (a :: visited).Nodup := List.nodup_cons.mpr ⟨hmem, hnd⟩
              have hb' : ∀ x ∈ a :: visited, x < heap.length := by
                intro x hx
                rcases List.mem_cons.mp hx with rfl | hx
                · exact ha
                · exact hb x hx
              have hlen := nodup_bounded_length_le hnd' hb'
              have := ihE a elems 0 (a :: visited) rs v2 tr2 hnd' hb' hE
              simp only [List.length_cons] at hlen this
              simp only [rdepth]
              omega
        case _ flds hget =>
          split at h
          case isTrue => exact absurd (some_triple_inj h).1 (by simp)
          case isFalse hmem =>
            split at h
            case _ => exact absurd h (by simp)
            case _ => exact absurd (some_triple_inj h).1 (by simp)
            case _ rs v2 tr2 hF =>
              obtain rfl : RVal.obj rs = t := by simpa using (some_triple_inj h).1
              have ha : a < heap.length := get?_lt_length hget
              have hnd' : (a :: visited).Nodup := List.nodup_cons.mpr ⟨hmem, hnd⟩
              have hb' : ∀ x ∈ a :: visited, x < heap.length := by
                intro x hx
                rcases List.mem_cons.mp hx with rfl | hx
                · exact ha
                · exact hb x hx
              have hlen := nodup_bounded_length_le hnd' hb'
              have := ihF a flds (a :: visited) rs v2 tr2 hnd' hb' hF
              simp only [List.length_cons] at hlen this
              simp only [rdepth]
              omega
    have hE : ∀ a elems idx visited rs v' tr, visited.Nodup →
        (∀ x ∈ visited, x < heap.length) →
        transformElems heap replacer (n + 1) a elems idx visited = some (.ok rs, v', tr) →
        rdepthList rs ≤ heap.length - visited.length + 1 := by
      intro a elems
      induction elems with
      | nil =>
        intro idx visited rs v' tr _ _ h
        rw [transformElems] at h
        have : ([] : List RVal) = rs := by simpa using (some_triple_inj h).1
        subst this
        simp [rdepthList]
      | cons e es ihes =>
        intro idx visited rs v' tr hnd hb h
        rw [transformElems] at h
        split at h
        case _ => exact absurd h (by simp)
        case _ => exact absurd (some_triple_inj h).1 (by simp)
        case _ r v2 tr2 hch =>
          have hv2 : v2 = visited :=
            ((transform_core_inv heap replacer (n + 1)).1 _ _ _ _ _ _ _ hch).1
          subst hv2
          split at h
          case _ => exact absurd h (by simp)
          case _ => exact absurd (some_triple_inj h).1 (by simp)
          case _ rs3 v3 tr3 hrest =>
            obtain rfl : r :: rs3 = rs := by simpa using (some_triple_inj h).1
            have h1 := hT _ _ _ _ _ _ _ hnd hb hch
            have h2 := ihes _ _ _ _ _ hnd hb hrest
            simp only [rdepthList]
            omega
    have hF : ∀ a flds visited rs v' tr, visited.Nodup →
        (∀ x ∈ visited, x < heap.length) →
        transformFields heap replacer (n + 1) a flds visited = some (.ok rs, v', tr) →
        rdepthFields rs ≤ heap.length - visited.length + 1 := by
      intro a flds
      induction flds with
      | nil =>
        intro visited rs v' tr _ _ h
        rw [transformFields] at h
        have : ([] : List (String × RVal)) = rs := by simpa using (some_triple_inj h).1
        subst this
        simp [rdepthFields]
      | cons kv es ihes =>
        intro visited rs v' tr hnd hb h
        match kv with
        | (k, e) =>
        rw [transformFields] at h
        split at h
        case _ => exact absurd h (by simp)
        case _ => exact absurd (some_triple_inj h).1 (by simp)
        case _ r v2 tr2 hch =>
          have hv2 : v2 = visited :=
            ((transform_core_inv heap replacer (n + 1)).1 _ _ _ _ _ _ _ hch).1
          subst hv2
          split at h
          case _ => exact absurd h (by simp)
          case _ => exact absurd (some_triple_inj h).1 (by simp)
          case _ rs3 v3 tr3 hrest =>
            obtain rfl : (k, r) :: rs3 = rs := by simpa using (some_triple_inj h).1
            have h1 := hT _ _ _ _ _ _ _ hnd hb hch
            have h2 := ihes _ _ _ _ hnd hb hrest
            simp only [rdepthFields]
            omega
    exact ⟨hT, hE, hF⟩

/-- Claim C10: the traversal always terminates.  (1) `transform` started with
the empty visited set cannot exhaust any fuel beyond the number of distinct
container references in the heap — revisiting a container on the path throws
instead of recursing; (2) the whole top-level call, final render included,
settles: it returns a result or an error, never `none`. -/
theorem transform_terminates :
    (∀ (heap : Heap) (replacer : Replacer) (parent : Ctx) (key : String)
      (val : JSVal) (fuel : Nat), heap.length < fuel →
      transform heap replacer fuel parent key val [] ≠ none) ∧
    (∀ (heap : Heap) (replacer : Replacer) (v : JSVal) (space : Space),
      asyncStringify heap replacer v space (4 * heap.length + 8) ≠ none) := by
  constructor
  · intro heap replacer parent key val fuel hfuel
    exact (transform_fuel heap replacer fuel).1 parent key val []
      (by simp) (by simp) (by simpa)
  · intro heap replacer v space
    rw [asyncStringify]
    split
    case _ hnone =>
      exact absurd hnone ((transform_fuel heap replacer _).1 (.root v) "" v []
        (by simp) (by simp) (by simp; omega))
    case _ => simp
    case _ t v' tr hok =>
      have hd : rdepth t ≤ heap.length + 1 := by
        have := (transform_rdepth heap replacer _).1 _ _ _ _ _ _ _
          (by simp) (by simp) hok
        simpa using this
      have hne := (jsonEval_fuel heap (4 * heap.length + 8)).1 [] t
        (by simp) (by simp) (by simp; omega)
      split
      case _ hnone => exact absurd hnone hne
      case _ => simp
      case _ => simp

/-- Witness for claim C10 on a concrete input. -/
theorem transform_terminates_witness :
    transform [] idReplacer 1 (.root .null) "" .null [] ≠ none ∧
    asyncStringify [] idReplacer .null .absent 8 ≠ none :=
  ⟨transform_terminates.1 [] idReplacer (.root .null) "" .null 1 (by norm_num),
   transform_terminates.2 [] idReplacer .null .absent⟩

/-!
Claim C8: deterministic, strictly sequential sibling order.  The trace of
replacer invocations below a container is the concatenation of one block per
child, in ascending index order for sequences and field order for keyed
containers; each block starts with that child's own invocation, so a child's
entire (sub)traversal is finished before the next sibling's invocation
happens — there is no interleaving and no fan-out.
-/

theorem transformElems_trace_blocks (heap : Heap) (replacer : Replacer)
    (fuel : Nat) (a : Nat) : ∀ (elems : List JSVal) (idx : Nat)
    (visited : List Nat) (rs : List RVal) (v : List Nat) (tr : List TEntry),
    transformElems heap replacer fuel a elems idx visited = some (.ok rs, v, tr) →
    ∃ trs : List (List TEntry), tr = trs.flatten ∧ trs.length = elems.length ∧
      ∀ (i : Nat) (hi : i < elems.length) (hi' : i < trs.length),
        ∃ rest, trs.get ⟨i, hi'⟩ =
          ⟨.container a, toString (idx + i), elems.get ⟨i, hi⟩⟩ :: rest := by
  intro elems
  induction elems with
  | nil =>
    intro idx visited rs v tr h
    rw [transformElems] at h
    obtain ⟨h1, h2, h3⟩ := some_triple_inj h
    subst h3
    exact ⟨[], by simp, by simp, by intro i hi; exact absurd hi (by simp)⟩
  | cons e es ih =>
    intro idx visited rs v tr h
    rw [transformElems] at h
    split at h
    case _ => exact absurd h (by simp)
    case _ => exact absurd (some_triple_inj h).1 (by simp)
    case _ r v2 tr2 hch =>
      have hv2 : v2 = visited :=
        ((transform_core_inv heap replacer fuel).1 _ _ _ _ _ _ _ hch).1
      obtain ⟨rest1, hrest1, -⟩ :=
        ((transform_core_inv heap replacer fuel).1 _ _ _ _ _ _ _ hch).2.1
      split at h
      case _ => exact absurd h (by simp)
      case _ => exact absurd (some_triple_inj h).1 (by simp)
      case _ rs3 v3 tr3 hrest =>
        obtain ⟨h1, h2, h3⟩ := some_triple_inj h
        subst h3
        obtain ⟨trs', hjoin, hlen, hblocks⟩ := ih _ _ _ _ _ hrest
        refine ⟨tr2 :: trs', by simp [hjoin], by simp [hlen], ?_⟩
        intro i hi hi'
        match i with
        | 0 =>
          exact ⟨rest1, by simpa using hrest1⟩
        | i + 1 =>
          have hi2 : i < es.length := by simpa using hi
          have hi2' : i < trs'.length := by simpa using hi'
          obtain ⟨rest2, hrest2⟩ := hblocks i hi2 hi2'
          refine ⟨rest2, ?_⟩
          have harith : idx + 1 + i = idx + (i + 1) := by omega
          simpa [harith] using hrest2

theorem transformFields_trace_blocks (heap : Heap) (replacer : Replacer)
    (fuel : Nat) (a : Nat) : ∀ (flds : List (String × JSVal))
    (visited : List Nat) (rs : List (String × RVal)) (v : List Nat) (tr : List TEntry),
    transformFields heap replacer fuel a flds visited = some (.ok rs, v, tr) →
    ∃ trs : List (List TEntry), tr = trs.flatten ∧ trs.length = flds.length ∧
      ∀ (i : Nat) (hi : i < flds.length) (hi' : i < trs.length),
        ∃ rest, trs.get ⟨i, hi'⟩ =
          ⟨.container a, (flds.get ⟨i, hi⟩).1, (flds.get ⟨i, hi⟩).2⟩ :: rest := by
  intro flds
  induction flds with
  | nil =>
    intro visited rs v tr h
    rw [transformFields] at h
    obtain ⟨h1, h2, h3⟩ := some_triple_inj h
    subst h3
    exact ⟨[], by simp, by simp, by intro i hi; exact absurd hi (by simp)⟩
  | cons kv es ih =>
    intro visited rs v tr h
    match kv with
    | (k, e) =>
    rw [transformFields] at h
    split at h
    case _ => exact absurd h (by simp)
    case _ => exact absurd (some_triple_inj h).1 (by simp)
    case _ r v2 tr2 hch =>
      have hv2 : v2 = visited :=
        ((transform_core_inv heap replacer fuel).1 _ _ _ _ _ _ _ hch).1
      obtain ⟨rest1, hrest1, -⟩ :=
        ((transform_core_inv heap replacer fuel).1 _ _ _ _ _ _ _ hch).2.1
      split at h
      case _ => exact absurd h (by simp)
      case _ => exact absurd (some_triple_inj h).1 (by simp)
      case _ rs3 v3 tr3 hrest =>
        obtain ⟨h1, h2, h3⟩ := some_triple_inj h
        subst h3
        obtain ⟨trs', hjoin, hlen, hblocks⟩ := ih _ _ _ _ hrest
        refine ⟨tr2 :: trs', by simp [hjoin], by simp [hlen], ?_⟩
        intro i hi hi'
        match i with
        | 0 =>
          exact ⟨rest1, by simpa using hrest1⟩
        | i + 1 =>
          have hi2 : i < es.length := by simpa using hi
          have hi2' : i < trs'.length := by simpa using hi'
          obtain ⟨rest2, hrest2⟩ := hblocks i hi2 hi2'
          exact ⟨rest2, by simpa using hrest2⟩

/-- Claim C8: below a plain container, the replacer-invocation trace is the
container's own invocation followed by one contiguous block per child in
deterministic order — ascending index `0..length-1` for a sequence, field
order for a keyed container — and each block begins with that child's
invocation, so every sibling's transform (and its entire subtree) completes
before the next sibling's transform is invoked: strictly sequential, no
concurrent fan-out. -/
theorem sequential_sibling_order :
    (∀ (heap : Heap) (replacer : Replacer) (fuel : Nat) (parent : Ctx)
      (key : String) (val : JSVal) (visited : List Nat) (a : Nat)
      (elems : List JSVal) (res : RVal) (v' : List Nat) (tr : List TEntry),
      replacer parent key val = .ref a →
      heap.get? a = some (.arr elems) →
      a ∉ visited →
      transform heap replacer (fuel + 1) parent key val visited =
        some (.ok res, v', tr) →
      ∃ trs : List (List TEntry),
        tr = ⟨parent, key, val⟩ :: trs.flatten ∧ trs.length = elems.length ∧
        ∀ (i : Nat) (hi : i < elems.length) (hi' : i < trs.length),
          ∃ rest, trs.get ⟨i, hi'⟩ =
            ⟨.container a, toString i, elems.get ⟨i, hi⟩⟩ :: rest) ∧
    (∀ (heap : Heap) (replacer : Replacer) (fuel : Nat) (parent : Ctx)
      (key : String) (val : JSVal) (visited : List Nat) (a : Nat)
      (flds : List (String × JSVal)) (res : RVal) (v' : List Nat) (tr : List TEntry),
      replacer parent key val = .ref a →
      heap.get? a = some (.obj flds) →
      a ∉ visited →
      transform heap replacer (fuel + 1) parent key val visited =
        some (.ok res, v', tr) →
      ∃ trs : List (List TEntry),
        tr = ⟨parent, key, val⟩ :: trs.flatten ∧ trs.length = flds.length ∧
        ∀ (i : Nat) (hi : i < flds.length) (hi' : i < trs.length),
          ∃ rest, trs.get ⟨i, hi'⟩ =
            ⟨.container a, (flds.get ⟨i, hi⟩).1, (flds.get ⟨i, hi⟩).2⟩ :: rest) := by
  constructor
  · intro heap replacer fuel parent key val visited a elems res v' tr hrep hget hmem h
    rw [transform] at h
    simp only [hrep, hget, if_neg hmem] at h
    split at h
    case _ => exact absurd h (by simp)
    case _ => exact absurd (some_triple_inj h).1 (by simp)
    case _ rs v2 tr2 hE =>
      obtain ⟨h1, h2, h3⟩ := some_triple_inj h
      subst h3
      obtain ⟨trs, hjoin, hlen, hblocks⟩ :=
        transformElems_trace_blocks heap replacer fuel a elems 0 (a :: visited)
          rs v2 tr2 hE
      refine ⟨trs, by simp [hjoin], hlen, ?_⟩
      intro i hi hi'
      obtain ⟨rest, hrest⟩ := hblocks i hi hi'
      exact ⟨rest, by simpa using hrest⟩
  · intro heap replacer fuel parent key val visited a flds res v' tr hrep hget hmem h
    rw [transform] at h
    simp only [hrep, hget, if_neg hmem] at h
    split at h
    case _ => exact absurd h (by simp)
    case _ => exact absurd (some_triple_inj h).1 (by simp)
    case _ rs v2 tr2 hF =>
      obtain ⟨h1, h2, h3⟩ := some_triple_inj h
      subst h3
      obtain ⟨trs, hjoin, hlen, hblocks⟩ :=
        transformFields_trace_blocks heap replacer fuel a flds (a :: visited)
          rs v2 tr2 hF
      exact ⟨trs, by simp [hjoin], hlen, hblocks⟩

/-- Witness for claim C8: a two-element sequence under the identity replacer;
the trace is the root invocation followed by the two element invocations in
index order. -/
theorem sequential_sibling_order_witness :
    ∃ trs : List (List TEntry),
      ([⟨.root (.ref 0), "", .ref 0⟩, ⟨.container 0, "0", .num 1⟩,
        ⟨.container 0, "1", .str "x"⟩] : List TEntry) =
        ⟨.root (.ref 0), "", .ref 0⟩ :: trs.flatten ∧
      trs.length = 2 ∧
      ∀ (i : Nat) (hi : i < ([JSVal.num 1, JSVal.str "x"] : List JSVal).length)
        (hi' : i < trs.length),
        ∃ rest, trs.get ⟨i, hi'⟩ =
          ⟨.container 0, toString i,
            ([JSVal.num 1, JSVal.str "x"] : List JSVal).get ⟨i, hi⟩⟩ :: rest := by
  have h := sequential_sibling_order.1 [.arr [.num 1, .str "x"]] idReplacer 3
    (.root (.ref 0)) "" (.ref 0) [] 0 [.num 1, .str "x"]
    (.arr [.num 1, .str "x"]) []
    [⟨.root (.ref 0), "", .ref 0⟩, ⟨.container 0, "0", .num 1⟩,
      ⟨.container 0, "1", .str "x"⟩]
    rfl rfl (by simp)
    (by simp [transform, transformElems, idReplacer, removeFirst]; decide)
  simpa using h

/-!
Claim C1: equivalence of `asyncStringify` under the identity replacer with
the reference synchronous encoder.  The equivalence is proved for acyclic
inputs whose serialization hooks return scalars; the counterexample below
shows that a hook returning a hook-bearing container separates the two
pipelines (the reference encoder applies `toJSON` once per node, the engine's
raw hook result receives a second `toJSON` application from the final
render), so the claim as stated is false.
-/






theorem elemsEquiv (heap : Heap) (rank : Nat → Nat) (a : Nat) (m : Nat) :
    ∀ elems : List JSVal, (∀ e ∈ elems, ValEquivAt heap rank m e) →
    ∀ idx visited, (∀ x ∈ visited, m ≤ rank x) →
    ∀ fuelT, m + 1 ≤ fuelT →
    ∃ st tr, transformElems heap idReplacer fuelT a elems idx visited =
        some (st, visited, tr) ∧
      ∀ fuelR stackD, m + 2 ≤ fuelR → (∀ x ∈ stackD, m ≤ rank x) →
        ∃ w, jsonEvalElems heap fuelR stackD (elems.map RVal.ofVal) = some w ∧
          w ≠ .error .circularError ∧
          (∀ err, st = .error err → err = .bigIntError ∧ w = .error .bigIntError) ∧
          (∀ ts, st = .ok ts → ∀ fuelL stackL, m + 2 ≤ fuelL →
            (∀ x ∈ stackL, m ≤ rank x) →
            jsonEvalElems heap fuelL stackL ts = some w) := by
  intro elems
  induction elems with
  | nil =>
    intro _ idx visited hvis fuelT hfuel
    refine ⟨.ok [], [], by rw [transformElems], ?_⟩
    intro fuelR stackD hfR hsD
    refine ⟨.ok [], by simp [jsonEvalElems], by simp, ?_, ?_⟩
    · intro err herr
      exact absurd herr (by simp)
    · intro ts hts fuelL stackL hfL hsL
      obtain rfl : ([] : List RVal) = ts := by simpa using hts
      simp [jsonEvalElems]
  | cons e es ih =>
    intro hall idx visited hvis fuelT hfuel
    have hche := hall e (by simp)
    have hrest := ih (fun x hx => hall x (by simp [hx]))
    obtain ⟨res, tr1, hrun1, hrender1⟩ :=
      hche (.container a) (toString idx) visited hvis fuelT hfuel
    cases res with
    | error err =>
      refine ⟨.error err, tr1, ?_, ?_⟩
      · simp only [transformElems, hrun1]
      · intro fuelR stackD hfR hsD
        obtain ⟨w1, hw1, -, hbr1, -⟩ := hrender1 fuelR stackD hfR hsD
        obtain ⟨herr, hw1e⟩ := hbr1 err rfl
        subst hw1e
        refine ⟨.error .bigIntError, ?_, by simp, ?_, ?_⟩
        · rw [List.map_cons, jsonEvalElems, hw1]
        · intro err2 herr2
          obtain rfl : err = err2 := by simpa using herr2
          exact ⟨herr, rfl⟩
        · intro ts hts
          exact absurd hts (by simp)
    | ok t =>
      obtain ⟨st', tr', hrun', hrender'⟩ :=
        hrest (idx + 1) visited hvis fuelT hfuel
      cases st' with
      | error err' =>
        refine ⟨.error err', tr1 ++ tr', ?_, ?_⟩
        · simp only [transformElems, hrun1, hrun']
        · intro fuelR stackD hfR hsD
          obtain ⟨w1, hw1, hnc1, -, hok1⟩ := hrender1 fuelR stackD hfR hsD
          obtain ⟨w2, hw2, -, hbr2, -⟩ := hrender' fuelR stackD hfR hsD
          obtain ⟨herr', hw2e⟩ := hbr2 err' rfl
          subst hw2e
          cases w1 with
          | error e1 =>
            have he1 : e1 = .bigIntError := by
              cases e1 with
              | bigIntError => rfl
              | circularError => exact absurd rfl hnc1
            subst he1
            refine ⟨.error .bigIntError, ?_, by simp, ?_, ?_⟩
            · rw [List.map_cons, jsonEvalElems, hw1]
            · intro err2 herr2
              obtain rfl : err' = err2 := by simpa using herr2
              exact ⟨herr', rfl⟩
            · intro ts hts
              exact absurd hts (by simp)
          | ok t1 =>
            refine ⟨.error .bigIntError, ?_, by simp, ?_, ?_⟩
            · rw [List.map_cons, jsonEvalElems, hw1, hw2]
            · intro err2 herr2
              obtain rfl : err' = err2 := by simpa using herr2
              exact ⟨herr', rfl⟩
            · intro ts hts
              exact absurd hts (by simp)
      | ok ts' =>
        refine ⟨.ok (t :: ts'), tr1 ++ tr', ?_, ?_⟩
        · simp only [transformElems, hrun1, hrun']
        · intro fuelR stackD hfR hsD
          obtain ⟨w1, hw1, hnc1, hbr1, hok1⟩ := hrender1 fuelR stackD hfR hsD
          obtain ⟨w2, hw2, hnc2, -, hok2⟩ := hrender' fuelR stackD hfR hsD
          cases w1 with
          | error e1 =>
            have he1ne : e1 ≠ JSError.circularError := fun hh => hnc1 (by rw [hh])
            refine ⟨.error e1, ?_, by simpa using he1ne, ?_, ?_⟩
            · rw [List.map_cons, jsonEvalElems, hw1]
            · intro err2 herr2
              exact absurd herr2 (by simp)
            · intro ts hts fuelL stackL hfL hsL
              obtain rfl : t :: ts' = ts := by simpa using hts
              have hlt := hok1 t rfl fuelL stackL hfL hsL
              rw [jsonEvalElems, hlt]
          | ok t1 =>
            cases w2 with
            | error e2 =>
              have he2ne : e2 ≠ JSError.circularError := fun hh => hnc2 (by rw [hh])
              refine ⟨.error e2, ?_, by simpa using he2ne, ?_, ?_⟩
              · rw [List.map_cons, jsonEvalElems, hw1, hw2]
              · intro err2 herr2
                exact absurd herr2 (by simp)
              · intro ts hts fuelL stackL hfL hsL
                obtain rfl : t :: ts' = ts := by simpa using hts
                have hlt := hok1 t rfl fuelL stackL hfL hsL
                have hlr := hok2 ts' rfl fuelL stackL hfL hsL
                rw [jsonEvalElems, hlt, hlr]
            | ok ts2 =>
              refine ⟨.ok (t1.getD .null :: ts2), ?_, by simp, ?_, ?_⟩
              · rw [List.map_cons, jsonEvalElems, hw1, hw2]
              · intro err2 herr2
                exact absurd herr2 (by simp)
              · intro ts hts fuelL stackL hfL hsL
                obtain rfl : t :: ts' = ts := by simpa using hts
                have hlt := hok1 t rfl fuelL stackL hfL hsL
                have hlr := hok2 ts' rfl fuelL stackL hfL hsL
                rw [jsonEvalElems, hlt, hlr]

theorem fieldsEquiv (heap : Heap) (rank : Nat → Nat) (a : Nat) (m : Nat) :
    ∀ flds : List (String × JSVal), (∀ kv ∈ flds, ValEquivAt heap rank m kv.2) →
    ∀ visited, (∀ x ∈ visited, m ≤ rank x) →
    ∀ fuelT, m + 1 ≤ fuelT →
    ∃ st tr, transformFields heap idReplacer fuelT a flds visited =
        some (st, visited, tr) ∧
      ∀ fuelR stackD, m + 2 ≤ fuelR → (∀ x ∈ stackD, m ≤ rank x) →
        ∃ w, jsonEvalFields heap fuelR stackD
            (flds.map fun p => (p.1, RVal.ofVal p.2)) = some w ∧
          w ≠ .error .circularError ∧
          (∀ err, st = .error err → err = .bigIntError ∧ w = .error .bigIntError) ∧
          (∀ ts, st = .ok ts → ∀ fuelL stackL, m + 2 ≤ fuelL →
            (∀ x ∈ stackL, m ≤ rank x) →
            jsonEvalFields heap fuelL stackL ts = some w) := by
  intro flds
  induction flds with
  | nil =>
    intro _ visited hvis fuelT hfuel
    refine ⟨.ok [], [], by rw [transformFields], ?_⟩
    intro fuelR stackD hfR hsD
    refine ⟨.ok [], by simp [jsonEvalFields], by simp, ?_, ?_⟩
    · intro err herr
      exact absurd herr (by simp)
    · intro ts hts fuelL stackL hfL hsL
      obtain rfl : ([] : List (String × RVal)) = ts := by simpa using hts
      simp [jsonEvalFields]
  | cons kv es ih =>
    obtain ⟨k, e⟩ := kv
    intro hall visited hvis fuelT hfuel
    have hche := hall (k, e) (by simp)
    have hrest := ih (fun x hx => hall x (by simp [hx]))
    obtain ⟨res, tr1, hrun1, hrender1⟩ :=
      hche (.container a) k visited hvis fuelT hfuel
    cases res with
    | error err =>
      refine ⟨.error err, tr1, ?_, ?_⟩
      · simp only [transformFields, hrun1]
      · intro fuelR stackD hfR hsD
        obtain ⟨w1, hw1, -, hbr1, -⟩ := hrender1 fuelR stackD hfR hsD
        obtain ⟨herr, hw1e⟩ := hbr1 err rfl
        subst hw1e
        refine ⟨.error .bigIntError, ?_, by simp, ?_, ?_⟩
        · rw [List.map_cons, jsonEvalFields, hw1]
        · intro err2 herr2
          obtain rfl : err = err2 := by simpa using herr2
          exact ⟨herr, rfl⟩
        · intro ts hts
          exact absurd hts (by simp)
    | ok t =>
      obtain ⟨st', tr', hrun', hrender'⟩ := hrest visited hvis fuelT hfuel
      cases st' with
      | error err' =>
        refine ⟨.error err', tr1 ++ tr', ?_, ?_⟩
        · simp only [transformFields, hrun1, hrun']
        · intro fuelR stackD hfR hsD
          obtain ⟨w1, hw1, hnc1, -, hok1⟩ := hrender1 fuelR stackD hfR hsD
          obtain ⟨w2, hw2, -, hbr2, -⟩ := hrender' fuelR stackD hfR hsD
          obtain ⟨herr', hw2e⟩ := hbr2 err' rfl
          subst hw2e
          cases w1 with
          | error e1 =>
            have he1 : e1 = .bigIntError := by
              cases e1 with
              | bigIntError => rfl
              | circularError => exact absurd rfl hnc1
            subst he1
            refine ⟨.error .bigIntError, ?_, by simp, ?_, ?_⟩
            · rw [List.map_cons, jsonEvalFields, hw1]
            · intro err2 herr2
              obtain rfl : err' = err2 := by simpa using herr2
              exact ⟨herr', rfl⟩
            · intro ts hts
              exact absurd hts (by simp)
          | ok t1 =>
            refine ⟨.error .bigIntError, ?_, by simp, ?_, ?_⟩
            · rw [List.map_cons, jsonEvalFields, hw1, hw2]
            · intro err2 herr2
              obtain rfl : err' = err2 := by simpa using herr2
              exact ⟨herr', rfl⟩
            · intro ts hts
              exact absurd hts (by simp)
      | ok ts' =>
        refine ⟨.ok ((k, t) :: ts'), tr1 ++ tr', ?_, ?_⟩
        · simp only [transformFields, hrun1, hrun']
        · intro fuelR stackD hfR hsD
          obtain ⟨w1, hw1, hnc1, hbr1, hok1⟩ := hrender1 fuelR stackD hfR hsD
          obtain ⟨w2, hw2, hnc2, -, hok2⟩ := hrender' fuelR stackD hfR hsD
          cases w1 with
          | error e1 =>
            have he1ne : e1 ≠ JSError.circularError := fun hh => hnc1 (by rw [hh])
            refine ⟨.error e1, ?_, by simpa using he1ne, ?_, ?_⟩
            · rw [List.map_cons, jsonEvalFields, hw1]
            · intro err2 herr2
              exact absurd herr2 (by simp)
            · intro ts hts fuelL stackL hfL hsL
              obtain rfl : (k, t) :: ts' = ts := by simpa using hts
              have hlt := hok1 t rfl fuelL stackL hfL hsL
              rw [jsonEvalFields, hlt]
          | ok t1 =>
            cases w2 with
            | error e2 =>
              have he2ne : e2 ≠ JSError.circularError := fun hh => hnc2 (by rw [hh])
              refine ⟨.error e2, ?_, by simpa using he2ne, ?_, ?_⟩
              · rw [List.map_cons, jsonEvalFields, hw1, hw2]
              · intro err2 herr2
                exact absurd herr2 (by simp)
              · intro ts hts fuelL stackL hfL hsL
                obtain rfl : (k, t) :: ts' = ts := by simpa using hts
                have hlt := hok1 t rfl fuelL stackL hfL hsL
                have hlr := hok2 ts' rfl fuelL stackL hfL hsL
                rw [jsonEvalFields, hlt, hlr]
            | ok ts2 =>
              cases t1 with
              | none =>
                refine ⟨.ok ts2, ?_, by simp, ?_, ?_⟩
                · rw [List.map_cons, jsonEvalFields, hw1, hw2]
                · intro err2 herr2
                  exact absurd herr2 (by simp)
                · intro ts hts fuelL stackL hfL hsL
                  obtain rfl : (k, t) :: ts' = ts := by simpa using hts
                  have hlt := hok1 t rfl fuelL stackL hfL hsL
                  have hlr := hok2 ts' rfl fuelL stackL hfL hsL
                  rw [jsonEvalFields, hlt, hlr]
              | some t1' =>
                refine ⟨.ok ((k, t1') :: ts2), ?_, by simp, ?_, ?_⟩
                · rw [List.map_cons, jsonEvalFields, hw1, hw2]
                · intro err2 herr2
                  exact absurd herr2 (by simp)
                · intro ts hts fuelL stackL hfL hsL
                  obtain rfl : (k, t) :: ts' = ts := by simpa using hts
                  have hlt := hok1 t rfl fuelL stackL hfL hsL
                  have hlr := hok2 ts' rfl fuelL stackL hfL hsL
                  rw [jsonEvalFields, hlt, hlr]

/-- On an acyclic heap whose hooks never return hook-bearing containers, the
reference encoder's value for a heap value is stable: one common result for
every sufficient fuel and every stack of higher rank, never the circular
error. -/
theorem jsonEvalStable (heap : Heap) (rank : Nat → Nat)
    (hacyc : AcyclicRank heap rank) (htame : TameHooks heap) :
    ∀ n,
      (∀ v, RankBound rank v n →
        ∃ w, w ≠ .error .circularError ∧
          ∀ fuel stack, n + 2 ≤ fuel → (∀ x ∈ stack, n ≤ rank x) →
            jsonEval heap fuel stack (RVal.ofVal v) = some w) ∧
      (∀ elems : List JSVal, (∀ e ∈ elems, RankBound rank e n) →
        ∃ w, w ≠ .error .circularError ∧
          ∀ fuel stack, n + 2 ≤ fuel → (∀ x ∈ stack, n ≤ rank x) →
            jsonEvalElems heap fuel stack (elems.map RVal.ofVal) = some w) ∧
      (∀ flds : List (String × JSVal), (∀ kv ∈ flds, RankBound rank kv.2 n) →
        ∃ w, w ≠ .error .circularError ∧
          ∀ fuel stack, n + 2 ≤ fuel → (∀ x ∈ stack, n ≤ rank x) →
            jsonEvalFields heap fuel stack
              (flds.map fun p => (p.1, RVal.ofVal p.2)) = some w) := by
  intro n
  induction n using Nat.strong_induction_on with
  | _ n ihn =>
  have hP : ∀ v, RankBound rank v n →
      ∃ w, w ≠ .error .circularError ∧
        ∀ fuel stack, n + 2 ≤ fuel → (∀ x ∈ stack, n ≤ rank x) →
          jsonEval heap fuel stack (RVal.ofVal v) = some w := by
    intro v hrb
    cases v with
    | null =>
      refine ⟨.ok (some .null), by simp, ?_⟩
      intro fuel stack hf hs
      obtain ⟨f, rfl⟩ : ∃ f, fuel = f + 1 := ⟨fuel - 1, by omega⟩
      rw [RVal.ofVal, jsonEval]
    | undef =>
      refine ⟨.ok none, by simp, ?_⟩
      intro fuel stack hf hs
      obtain ⟨f, rfl⟩ : ∃ f, fuel = f + 1 := ⟨fuel - 1, by omega⟩
      rw [RVal.ofVal, jsonEval]
    | bool b =>
      refine ⟨.ok (some (.bool b)), by simp, ?_⟩
      intro fuel stack hf hs
      obtain ⟨f, rfl⟩ : ∃ f, fuel = f + 1 := ⟨fuel - 1, by omega⟩
      rw [RVal.ofVal, jsonEval]
    | num m =>
      refine ⟨.ok (some (.num m)), by simp, ?_⟩
      intro fuel stack hf hs
      obtain ⟨f, rfl⟩ : ∃ f, fuel = f + 1 := ⟨fuel - 1, by omega⟩
      rw [RVal.ofVal, jsonEval]
    | str s =>
      refine ⟨.ok (some (.str s)), by simp, ?_⟩
      intro fuel stack hf hs
      obtain ⟨f, rfl⟩ : ∃ f, fuel = f + 1 := ⟨fuel - 1, by omega⟩
      rw [RVal.ofVal, jsonEval]
    | func i =>
      refine ⟨.ok none, by simp, ?_⟩
      intro fuel stack hf hs
      obtain ⟨f, rfl⟩ : ∃ f, fuel = f + 1 := ⟨fuel - 1, by omega⟩
      rw [RVal.ofVal, jsonEval]
    | bigint m =>
      refine ⟨.error .bigIntError, by simp, ?_⟩
      intro fuel stack hf hs
      obtain ⟨f, rfl⟩ : ∃ f, fuel = f + 1 := ⟨fuel - 1, by omega⟩
      rw [RVal.ofVal, jsonEval]
    | ref a =>
      have hra : rank a < n := hrb a rfl
      cases hget : heap.get? a with
      | none =>
        refine ⟨.ok none, by simp, ?_⟩
        intro fuel stack hf hs
        obtain ⟨f, rfl⟩ : ∃ f, fuel = f + 1 := ⟨fuel - 1, by omega⟩
        rw [RVal.ofVal, jsonEval]
        simp only [hget]
      | some o =>
        cases o with
        | hook r =>
          cases r with
          | ref b =>
            have hnothook := htame a (.ref b) hget b rfl
            have hrbb : RankBound rank (JSVal.ref b) (rank a) := by
              intro b' hb'
              obtain rfl : b = b' := by simpa using hb'
              exact hacyc a (.hook (.ref b)) hget (.ref b)
                (by simp [HeapObj.edgeVals]) b rfl
            obtain ⟨wb, hncb, hstabb⟩ := (ihn (rank a) hra).1 (JSVal.ref b) hrbb
            refine ⟨wb, hncb, ?_⟩
            intro fuel stack hf hs
            obtain ⟨f, rfl⟩ : ∃ f, fuel = f + 1 := ⟨fuel - 1, by omega⟩
            rw [RVal.ofVal, jsonEval]
            simp only [hget]
            exact hstabb f stack (by omega)
              (fun x hx => le_trans (le_of_lt hra) (hs x hx))
          | null =>
            refine ⟨.ok (some .null), by simp, ?_⟩
            intro fuel stack hf hs
            obtain ⟨f, rfl⟩ : ∃ f, fuel = f + 1 := ⟨fuel - 1, by omega⟩
            obtain ⟨f2, rfl⟩ : ∃ f2, f = f2 + 1 := ⟨f - 1, by omega⟩
            rw [RVal.ofVal, jsonEval]
            simp only [hget]
            rw [RVal.ofVal, jsonEval]
          | undef =>
            refine ⟨.ok none, by simp, ?_⟩
            intro fuel stack hf hs
            obtain ⟨f, rfl⟩ : ∃ f, fuel = f + 1 := ⟨fuel - 1, by omega⟩
            obtain ⟨f2, rfl⟩ : ∃ f2, f = f2 + 1 := ⟨f - 1, by omega⟩
            rw [RVal.ofVal, jsonEval]
            simp only [hget]
            rw [RVal.ofVal, jsonEval]
          | bool b =>
            refine ⟨.ok (some (.bool b)), by simp, ?_⟩
            intro fuel stack hf hs
            obtain ⟨f, rfl⟩ : ∃ f, fuel = f + 1 := ⟨fuel - 1, by omega⟩
            obtain ⟨f2, rfl⟩ : ∃ f2, f = f2 + 1 := ⟨f - 1, by omega⟩
            rw [RVal.ofVal, jsonEval]
            simp only [hget]
            rw [RVal.ofVal, jsonEval]
          | num m =>
            refine ⟨.ok (some (.num m)), by simp, ?_⟩
            intro fuel stack hf hs
            obtain ⟨f, rfl⟩ : ∃ f, fuel = f + 1 := ⟨fuel - 1, by omega⟩
            obtain ⟨f2, rfl⟩ : ∃ f2, f = f2 + 1 := ⟨f - 1, by omega⟩
            rw [RVal.ofVal, jsonEval]
            simp only [hget]
            rw [RVal.ofVal, jsonEval]
          | str s =>
            refine ⟨.ok (some (.str s)), by simp, ?_⟩
            intro fuel stack hf hs
            obtain ⟨f, rfl⟩ : ∃ f, fuel = f + 1 := ⟨fuel - 1, by omega⟩
            obtain ⟨f2, rfl⟩ : ∃ f2, f = f2 + 1 := ⟨f - 1, by omega⟩
            rw [RVal.ofVal, jsonEval]
            simp only [hget]
            rw [RVal.ofVal, jsonEval]
          | func i =>
            refine ⟨.ok none, by simp, ?_⟩
            intro fuel stack hf hs
            obtain ⟨f, rfl⟩ : ∃ f, fuel = f + 1 := ⟨fuel - 1, by omega⟩
            obtain ⟨f2, rfl⟩ : ∃ f2, f = f2 + 1 := ⟨f - 1, by omega⟩
            rw [RVal.ofVal, jsonEval]
            simp only [hget]
            rw [RVal.ofVal, jsonEval]
          | bigint m =>
            refine ⟨.error .bigIntError, by simp, ?_⟩
            intro fuel stack hf hs
            obtain ⟨f, rfl⟩ : ∃ f, fuel = f + 1 := ⟨fuel - 1, by omega⟩
            obtain ⟨f2, rfl⟩ : ∃ f2, f = f2 + 1 := ⟨f - 1, by omega⟩
            rw [RVal.ofVal, jsonEval]
            simp only [hget]
            rw [RVal.ofVal, jsonEval]
        | arr elems =>
          have hch : ∀ e ∈ elems, RankBound rank e (rank a) := by
            intro e he b hb
            exact hacyc a (.arr elems) hget e
              (by simp [HeapObj.edgeVals, HeapObj.childVals, he]) b hb
          obtain ⟨wl, hncl, hstl⟩ := (ihn (rank a) hra).2.1 elems hch
          have hsub : ∀ fuel stack, n + 2 ≤ fuel + 1 → (∀ x ∈ stack, n ≤ rank x) →
              jsonEvalElems heap fuel (a :: stack) (elems.map RVal.ofVal) = some wl := by
            intro fuel stack hf hs
            exact hstl fuel (a :: stack) (by omega)
              (by intro x hx
                  rcases List.mem_cons.mp hx with rfl | hx
                  · exact le_refl _
                  · exact le_trans (le_of_lt hra) (hs x hx))
          cases wl with
          | error el =>
            have helne : el ≠ JSError.circularError := fun hh => hncl (by rw [hh])
            refine ⟨.error el, by simpa using helne, ?_⟩
            intro fuel stack hf hs
            obtain ⟨f, rfl⟩ : ∃ f, fuel = f + 1 := ⟨fuel - 1, by omega⟩
            have hmem : a ∉ stack := fun hx => absurd (hs a hx) (by omega)
            rw [RVal.ofVal, jsonEval]
            simp only [hget, if_neg hmem, hsub f stack hf hs]
          | ok tsl =>
            refine ⟨.ok (some (.arr tsl)), by simp, ?_⟩
            intro fuel stack hf hs
            obtain ⟨f, rfl⟩ : ∃ f, fuel = f + 1 := ⟨fuel - 1, by omega⟩
            have hmem : a ∉ stack := fun hx => absurd (hs a hx) (by omega)
            rw [RVal.ofVal, jsonEval]
            simp only [hget, if_neg hmem, hsub f stack hf hs]
        | obj flds =>
          have hch : ∀ kv ∈ flds, RankBound rank kv.2 (rank a) := by
            intro kv hkv b hb
            refine hacyc a (.obj flds) hget kv.2 ?_ b hb
            simp only [HeapObj.edgeVals, HeapObj.childVals, List.mem_map]
            exact ⟨kv, hkv, rfl⟩
          obtain ⟨wl, hncl, hstl⟩ := (ihn (rank a) hra).2.2 flds hch
          have hsub : ∀ fuel stack, n + 2 ≤ fuel + 1 → (∀ x ∈ stack, n ≤ rank x) →
              jsonEvalFields heap fuel (a :: stack)
                (flds.map fun p => (p.1, RVal.ofVal p.2)) = some wl := by
            intro fuel stack hf hs
            exact hstl fuel (a :: stack) (by omega)
              (by intro x hx
                  rcases List.mem_cons.mp hx with rfl | hx
                  · exact le_refl _
                  · exact le_trans (le_of_lt hra) (hs x hx))
          cases wl with
          | error el =>
            have helne : el ≠ JSError.circularError := fun hh => hncl (by rw [hh])
            refine ⟨.error el, by simpa using helne, ?_⟩
            intro fuel stack hf hs
            obtain ⟨f, rfl⟩ : ∃ f, fuel = f + 1 := ⟨fuel - 1, by omega⟩
            have hmem : a ∉ stack := fun hx => absurd (hs a hx) (by omega)
            rw [RVal.ofVal, jsonEval]
            simp only [hget, if_neg hmem, hsub f stack hf hs]
          | ok tsl =>
            refine ⟨.ok (some (.obj tsl)), by simp, ?_⟩
            intro fuel stack hf hs
            obtain ⟨f, rfl⟩ : ∃ f, fuel = f + 1 := ⟨fuel - 1, by omega⟩
            have hmem : a ∉ stack := fun hx => absurd (hs a hx) (by omega)
            rw [RVal.ofVal, jsonEval]
            simp only [hget, if_neg hmem, hsub f stack hf hs]
  have hQ : ∀ elems : List JSVal, (∀ e ∈ elems, RankBound rank e n) →
      ∃ w, w ≠ .error .circularError ∧
        ∀ fuel stack, n + 2 ≤ fuel → (∀ x ∈ stack, n ≤ rank x) →
          jsonEvalElems heap fuel stack (elems.map RVal.ofVal) = some w := by
    intro elems
    induction elems with
    | nil =>
      intro _
      refine ⟨.ok [], by simp, ?_⟩
      intro fuel stack hf hs
      simp [jsonEvalElems]
    | cons e es ihes =>
      intro hall
      obtain ⟨w1, hnc1, hst1⟩ := hP e (hall e (by simp))
      obtain ⟨w2, hnc2, hst2⟩ := ihes (fun x hx => hall x (by simp [hx]))
      cases w1 with
      | error e1 =>
        have he1ne : e1 ≠ JSError.circularError := fun hh => hnc1 (by rw [hh])
        refine ⟨.error e1, by simpa using he1ne, ?_⟩
        intro fuel stack hf hs
        rw [List.map_cons, jsonEvalElems, hst1 fuel stack hf hs]
      | ok t1 =>
        cases w2 with
        | error e2 =>
          have he2ne : e2 ≠ JSError.circularError := fun hh => hnc2 (by rw [hh])
          refine ⟨.error e2, by simpa using he2ne, ?_⟩
          intro fuel stack hf hs
          rw [List.map_cons, jsonEvalElems, hst1 fuel stack hf hs,
            hst2 fuel stack hf hs]
        | ok ts2 =>
          refine ⟨.ok (t1.getD .null :: ts2), by simp, ?_⟩
          intro fuel stack hf hs
          rw [List.map_cons, jsonEvalElems, hst1 fuel stack hf hs,
            hst2 fuel stack hf hs]
  have hR : ∀ flds : List (String × JSVal), (∀ kv ∈ flds, RankBound rank kv.2 n) →
      ∃ w, w ≠ .error .circularError ∧
        ∀ fuel stack, n + 2 ≤ fuel → (∀ x ∈ stack, n ≤ rank x) →
          jsonEvalFields heap fuel stack
            (flds.map fun p => (p.1, RVal.ofVal p.2)) = some w := by
    intro flds
    induction flds with
    | nil =>
      intro _
      refine ⟨.ok [], by simp, ?_⟩
      intro fuel stack hf hs
      simp [jsonEvalFields]
    | cons kv es ihes =>
      obtain ⟨k, e⟩ := kv
      intro hall
      obtain ⟨w1, hnc1, hst1⟩ := hP e (hall (k, e) (by simp))
      obtain ⟨w2, hnc2, hst2⟩ := ihes (fun x hx => hall x (by simp [hx]))
      cases w1 with
      | error e1 =>
        have he1ne : e1 ≠ JSError.circularError := fun hh => hnc1 (by rw [hh])
        refine ⟨.error e1, by simpa using he1ne, ?_⟩
        intro fuel stack hf hs
        rw [List.map_cons, jsonEvalFields, hst1 fuel stack hf hs]
      | ok t1 =>
        cases w2 with
        | error e2 =>
          have he2ne : e2 ≠ JSError.circularError := fun hh => hnc2 (by rw [hh])
          refine ⟨.error e2, by simpa using he2ne, ?_⟩
          intro fuel stack hf hs
          rw [List.map_cons, jsonEvalFields, hst1 fuel stack hf hs,
            hst2 fuel stack hf hs]
        | ok ts2 =>
          cases t1 with
          | none =>
            refine ⟨.ok ts2, by simp, ?_⟩
            intro fuel stack hf hs
            rw [List.map_cons, jsonEvalFields, hst1 fuel stack hf hs,
              hst2 fuel stack hf hs]
          | some t1' =>
            refine ⟨.ok ((k, t1') :: ts2), by simp, ?_⟩
            intro fuel stack hf hs
            rw [List.map_cons, jsonEvalFields, hst1 fuel stack hf hs,
              hst2 fuel stack hf hs]
  exact ⟨hP, hQ, hR⟩

theorem valEquiv (heap : Heap) (rank : Nat → Nat)
    (hacyc : AcyclicRank heap rank) (htame : TameHooks heap) :
    ∀ n v, RankBound rank v n → ValEquivAt heap rank n v := by
  intro n
  induction n using Nat.strong_induction_on with
  | _ n ihn =>
  intro v hrb parent key visited hvis fuelT hfuel
  obtain ⟨fT, rfl⟩ : ∃ fT, fuelT = fT + 1 := ⟨fuelT - 1, by omega⟩
  cases v with
  | null =>
    refine ⟨.ok .null, [⟨parent, key, .null⟩], by simp [transform, idReplacer], ?_⟩
    intro fuelR stackD hfR hsD
    obtain ⟨fR, rfl⟩ : ∃ fR, fuelR = fR + 1 := ⟨fuelR - 1, by omega⟩
    refine ⟨.ok (some .null), by rw [RVal.ofVal, jsonEval], by simp, ?_, ?_⟩
    · intro err herr
      exact absurd herr (by simp)
    · intro t ht fuelL stackL hfL hsL
      obtain rfl : RVal.null = t := by simpa using ht
      obtain ⟨fL, rfl⟩ : ∃ fL, fuelL = fL + 1 := ⟨fuelL - 1, by omega⟩
      rw [jsonEval]
  | undef =>
    refine ⟨.ok .undef, [⟨parent, key, .undef⟩], by simp [transform, idReplacer], ?_⟩
    intro fuelR stackD hfR hsD
    obtain ⟨fR, rfl⟩ : ∃ fR, fuelR = fR + 1 := ⟨fuelR - 1, by omega⟩
    refine ⟨.ok none, by rw [RVal.ofVal, jsonEval], by simp, ?_, ?_⟩
    · intro err herr
      exact absurd herr (by simp)
    · intro t ht fuelL stackL hfL hsL
      obtain rfl : RVal.undef = t := by simpa using ht
      obtain ⟨fL, rfl⟩ : ∃ fL, fuelL = fL + 1 := ⟨fuelL - 1, by omega⟩
      rw [jsonEval]
  | bool b =>
    refine ⟨.ok (.bool b), [⟨parent, key, .bool b⟩], by simp [transform, idReplacer], ?_⟩
    intro fuelR stackD hfR hsD
    obtain ⟨fR, rfl⟩ : ∃ fR, fuelR = fR + 1 := ⟨fuelR - 1, by omega⟩
    refine ⟨.ok (some (.bool b)), by rw [RVal.ofVal, jsonEval], by simp, ?_, ?_⟩
    · intro err herr
      exact absurd herr (by simp)
    · intro t ht fuelL stackL hfL hsL
      obtain rfl : RVal.bool b = t := by simpa using ht
      obtain ⟨fL, rfl⟩ : ∃ fL, fuelL = fL + 1 := ⟨fuelL - 1, by omega⟩
      rw [jsonEval]
  | num m =>
    refine ⟨.ok (.num m), [⟨parent, key, .num m⟩], by simp [transform, idReplacer], ?_⟩
    intro fuelR stackD hfR hsD
    obtain ⟨fR, rfl⟩ : ∃ fR, fuelR = fR + 1 := ⟨fuelR - 1, by omega⟩
    refine ⟨.ok (some (.num m)), by rw [RVal.ofVal, jsonEval], by simp, ?_, ?_⟩
    · intro err herr
      exact absurd herr (by simp)
    · intro t ht fuelL stackL hfL hsL
      obtain rfl : RVal.num m = t := by simpa using ht
      obtain ⟨fL, rfl⟩ : ∃ fL, fuelL = fL + 1 := ⟨fuelL - 1, by omega⟩
      rw [jsonEval]
  | str s =>
    refine ⟨.ok (.str s), [⟨parent, key, .str s⟩], by simp [transform, idReplacer], ?_⟩
    intro fuelR stackD hfR hsD
    obtain ⟨fR, rfl⟩ : ∃ fR, fuelR = fR + 1 := ⟨fuelR - 1, by omega⟩
    refine ⟨.ok (some (.str s)), by rw [RVal.ofVal, jsonEval], by simp, ?_, ?_⟩
    · intro err herr
      exact absurd herr (by simp)
    · intro t ht fuelL stackL hfL hsL
      obtain rfl : RVal.str s = t := by simpa using ht
      obtain ⟨fL, rfl⟩ : ∃ fL, fuelL = fL + 1 := ⟨fuelL - 1, by omega⟩
      rw [jsonEval]
  | func i =>
    refine ⟨.ok (.func i), [⟨parent, key, .func i⟩], by simp [transform, idReplacer], ?_⟩
    intro fuelR stackD hfR hsD
    obtain ⟨fR, rfl⟩ : ∃ fR, fuelR = fR + 1 := ⟨fuelR - 1, by omega⟩
    refine ⟨.ok none, by rw [RVal.ofVal, jsonEval], by simp, ?_, ?_⟩
    · intro err herr
      exact absurd herr (by simp)
    · intro t ht fuelL stackL hfL hsL
      obtain rfl : RVal.func i = t := by simpa using ht
      obtain ⟨fL, rfl⟩ : ∃ fL, fuelL = fL + 1 := ⟨fuelL - 1, by omega⟩
      rw [jsonEval]
  | bigint m =>
    refine ⟨.error .bigIntError, [⟨parent, key, .bigint m⟩],
      by simp [transform, idReplacer], ?_⟩
    intro fuelR stackD hfR hsD
    obtain ⟨fR, rfl⟩ : ∃ fR, fuelR = fR + 1 := ⟨fuelR - 1, by omega⟩
    refine ⟨.error .bigIntError, by rw [RVal.ofVal, jsonEval], by simp, ?_, ?_⟩
    · intro err herr
      obtain rfl : JSError.bigIntError = err := by simpa using herr
      exact ⟨rfl, rfl⟩
    · intro t ht
      exact absurd ht (by simp)
  | ref a =>
    have hra : rank a < n := hrb a rfl
    cases hget : heap.get? a with
    | none =>
      refine ⟨.ok (.ref a), [⟨parent, key, .ref a⟩],
        by rw [transform]; simp only [idReplacer, hget], ?_⟩
      intro fuelR stackD hfR hsD
      obtain ⟨fR, rfl⟩ : ∃ fR, fuelR = fR + 1 := ⟨fuelR - 1, by omega⟩
      refine ⟨.ok none, by rw [RVal.ofVal, jsonEval]; simp only [hget], by simp, ?_, ?_⟩
      · intro err herr
        exact absurd herr (by simp)
      · intro t ht fuelL stackL hfL hsL
        obtain rfl : RVal.ref a = t := by simpa using ht
        obtain ⟨fL, rfl⟩ : ∃ fL, fuelL = fL + 1 := ⟨fuelL - 1, by omega⟩
        rw [jsonEval]
        simp only [hget]
    | some o =>
      cases o with
      | hook r =>
        refine ⟨.ok (RVal.ofVal r), [⟨parent, key, .ref a⟩],
          by rw [transform]; simp only [idReplacer, hget], ?_⟩
        intro fuelR stackD hfR hsD
        obtain ⟨fR, rfl⟩ : ∃ fR, fuelR = fR + 1 := ⟨fuelR - 1, by omega⟩
        obtain ⟨fR2, rfl⟩ : ∃ fR2, fR = fR2 + 1 := ⟨fR - 1, by omega⟩
        cases r with
        | ref b =>
          have hnothook : ∀ r2, heap.get? b ≠ some (HeapObj.hook r2) :=
            htame a (.ref b) hget b rfl
          have hrbb : RankBound rank (JSVal.ref b) (rank a) := by
            intro b' hb'
            obtain rfl : b = b' := by simpa using hb'
            exact hacyc a (.hook (.ref b)) hget (.ref b)
              (by simp [HeapObj.edgeVals]) b rfl
          obtain ⟨wb, hncb, hstabb⟩ :=
            (jsonEvalStable heap rank hacyc htame (rank a)).1 (JSVal.ref b) hrbb
          refine ⟨wb, ?_, hncb, ?_, ?_⟩
          · rw [RVal.ofVal, jsonEval]
            simp only [hget]
            exact hstabb (fR2 + 1) stackD (by omega)
              (fun x hx => le_trans (le_of_lt hra) (hsD x hx))
          · intro err herr
            exact absurd herr (by simp)
          · intro t ht fuelL stackL hfL hsL
            obtain rfl : RVal.ofVal (.ref b) = t := by simpa using ht
            exact hstabb fuelL stackL (by omega)
              (fun x hx => le_trans (le_of_lt hra) (hsL x hx))
        | null =>
          refine ⟨.ok (some .null), ?_, by simp, ?_, ?_⟩
          · rw [RVal.ofVal, jsonEval]
            simp only [hget]
            rw [RVal.ofVal, jsonEval]
          · intro err herr
            exact absurd herr (by simp)
          · intro t ht fuelL stackL hfL hsL
            obtain rfl : RVal.ofVal .null = t := by simpa using ht
            obtain ⟨fL, rfl⟩ : ∃ fL, fuelL = fL + 1 := ⟨fuelL - 1, by omega⟩
            rw [RVal.ofVal, jsonEval]
        | undef =>
          refine ⟨.ok none, ?_, by simp, ?_, ?_⟩
          · rw [RVal.ofVal, jsonEval]
            simp only [hget]
            rw [RVal.ofVal, jsonEval]
          · intro err herr
            exact absurd herr (by simp)
          · intro t ht fuelL stackL hfL hsL
            obtain rfl : RVal.ofVal .undef = t := by simpa using ht
            obtain ⟨fL, rfl⟩ : ∃ fL, fuelL = fL + 1 := ⟨fuelL - 1, by omega⟩
            rw [RVal.ofVal, jsonEval]
        | bool b =>
          refine ⟨.ok (some (.bool b)), ?_, by simp, ?_, ?_⟩
          · rw [RVal.ofVal, jsonEval]
            simp only [hget]
            rw [RVal.ofVal, jsonEval]
          · intro err herr
            exact absurd herr (by simp)
          · intro t ht fuelL stackL hfL hsL
            obtain rfl : RVal.ofVal (.bool b) = t := by simpa using ht
            obtain ⟨fL, rfl⟩ : ∃ fL, fuelL = fL + 1 := ⟨fuelL - 1, by omega⟩
            rw [RVal.ofVal, jsonEval]
        | num m =>
          refine ⟨.ok (some (.num m)), ?_, by simp, ?_, ?_⟩
          · rw [RVal.ofVal, jsonEval]
            simp only [hget]
            rw [RVal.ofVal, jsonEval]
          · intro err herr
            exact absurd herr (by simp)
          · intro t ht fuelL stackL hfL hsL
            obtain rfl : RVal.ofVal (.num m) = t := by simpa using ht
            obtain ⟨fL, rfl⟩ : ∃ fL, fuelL = fL + 1 := ⟨fuelL - 1, by omega⟩
            rw [RVal.ofVal, jsonEval]
        | str s =>
          refine ⟨.ok (some (.str s)), ?_, by simp, ?_, ?_⟩
          · rw [RVal.ofVal, jsonEval]
            simp only [hget]
            rw [RVal.ofVal, jsonEval]
          · intro err herr
            exact absurd herr (by simp)
          · intro t ht fuelL stackL hfL hsL
            obtain rfl : RVal.ofVal (.str s) = t := by simpa using ht
            obtain ⟨fL, rfl⟩ : ∃ fL, fuelL = fL + 1 := ⟨fuelL - 1, by omega⟩
            rw [RVal.ofVal, jsonEval]
        | func i =>
          refine ⟨.ok none, ?_, by simp, ?_, ?_⟩
          · rw [RVal.ofVal, jsonEval]
            simp only [hget]
            rw [RVal.ofVal, jsonEval]
          · intro err herr
            exact absurd herr (by simp)
          · intro t ht fuelL stackL hfL hsL
            obtain rfl : RVal.ofVal (.func i) = t := by simpa using ht
            obtain ⟨fL, rfl⟩ : ∃ fL, fuelL = fL + 1 := ⟨fuelL - 1, by omega⟩
            rw [RVal.ofVal, jsonEval]
        | bigint m =>
          refine ⟨.error .bigIntError, ?_, by simp, ?_, ?_⟩
          · rw [RVal.ofVal, jsonEval]
            simp only [hget]
            rw [RVal.ofVal, jsonEval]
          · intro err herr
            exact absurd herr (by simp)
          · intro t ht fuelL stackL hfL hsL
            obtain rfl : RVal.ofVal (.bigint m) = t := by simpa using ht
            obtain ⟨fL, rfl⟩ : ∃ fL, fuelL = fL + 1 := ⟨fuelL - 1, by omega⟩
            rw [RVal.ofVal, jsonEval]
      | arr elems =>
        have hmem : a ∉ visited := fun hx => absurd (hvis a hx) (by omega)
        have helems : ∀ e ∈ elems, ValEquivAt heap rank (rank a) e := by
          intro e he
          refine ihn (rank a) hra e ?_
          intro b hb
          exact hacyc a (.arr elems) hget e
            (by simp [HeapObj.edgeVals, HeapObj.childVals, he]) b hb
        obtain ⟨st, tr2, hrunE, hrenderE⟩ :=
          elemsEquiv heap rank a (rank a) elems helems 0 (a :: visited)
            (by intro x hx
                rcases List.mem_cons.mp hx with rfl | hx
                · exact le_refl _
                · exact le_of_lt (lt_of_lt_of_le hra (hvis x hx)))
            fT (by omega)
        cases st with
        | error err =>
          refine ⟨.error err, ⟨parent, key, .ref a⟩ :: tr2, ?_, ?_⟩
          · rw [transform]
            simp only [idReplacer, hget, if_neg hmem, hrunE, removeFirst_cons_self]
          · intro fuelR stackD hfR hsD
            obtain ⟨fR, rfl⟩ : ∃ fR, fuelR = fR + 1 := ⟨fuelR - 1, by omega⟩
            have hmemD : a ∉ stackD := fun hx => absurd (hsD a hx) (by omega)
            obtain ⟨w', hw', hnc', hbr', -⟩ := hrenderE fR (a :: stackD)
              (by omega)
              (by intro x hx
                  rcases List.mem_cons.mp hx with rfl | hx
                  · exact le_refl _
                  · exact le_of_lt (lt_of_lt_of_le hra (hsD x hx)))
            obtain ⟨herr, hw'e⟩ := hbr' err rfl
            subst hw'e
            refine ⟨.error .bigIntError, ?_, by simp, ?_, ?_⟩
            · rw [RVal.ofVal, jsonEval]
              simp only [hget, if_neg hmemD, hw']
            · intro err2 herr2
              obtain rfl : err = err2 := by simpa using herr2
              exact ⟨herr, rfl⟩
            · intro t ht
              exact absurd ht (by simp)
        | ok ts =>
          refine ⟨.ok (.arr ts), ⟨parent, key, .ref a⟩ :: tr2, ?_, ?_⟩
          · rw [transform]
            simp only [idReplacer, hget, if_neg hmem, hrunE, removeFirst_cons_self]
          · intro fuelR stackD hfR hsD
            obtain ⟨fR, rfl⟩ : ∃ fR, fuelR = fR + 1 := ⟨fuelR - 1, by omega⟩
            have hmemD : a ∉ stackD := fun hx => absurd (hsD a hx) (by omega)
            obtain ⟨w', hw', hnc', -, hok'⟩ := hrenderE fR (a :: stackD)
              (by omega)
              (by intro x hx
                  rcases List.mem_cons.mp hx with rfl | hx
                  · exact le_refl _
                  · exact le_of_lt (lt_of_lt_of_le hra (hsD x hx)))
            cases w' with
            | error e' =>
              have he'ne : e' ≠ JSError.circularError := fun hh => hnc' (by rw [hh])
              refine ⟨.error e', ?_, by simpa using he'ne, ?_, ?_⟩
              · rw [RVal.ofVal, jsonEval]
                simp only [hget, if_neg hmemD, hw']
              · intro err2 herr2
                exact absurd herr2 (by simp)
              · intro t ht fuelL stackL hfL hsL
                obtain rfl : RVal.arr ts = t := by simpa using ht
                obtain ⟨fL, rfl⟩ : ∃ fL, fuelL = fL + 1 := ⟨fuelL - 1, by omega⟩
                have hlt := hok' ts rfl fL stackL (by omega)
                  (fun x hx => le_trans (le_of_lt hra) (hsL x hx))
                rw [jsonEval, hlt]
            | ok ts2 =>
              refine ⟨.ok (some (.arr ts2)), ?_, by simp, ?_, ?_⟩
              · rw [RVal.ofVal, jsonEval]
                simp only [hget, if_neg hmemD, hw']
              · intro err2 herr2
                exact absurd herr2 (by simp)
              · intro t ht fuelL stackL hfL hsL
                obtain rfl : RVal.arr ts = t := by simpa using ht
                obtain ⟨fL, rfl⟩ : ∃ fL, fuelL = fL + 1 := ⟨fuelL - 1, by omega⟩
                have hlt := hok' ts rfl fL stackL (by omega)
                  (fun x hx => le_trans (le_of_lt hra) (hsL x hx))
                rw [jsonEval, hlt]
      | obj flds =>
        have hmem : a ∉ visited := fun hx => absurd (hvis a hx) (by omega)
        have hflds : ∀ kv ∈ flds, ValEquivAt heap rank (rank a) kv.2 := by
          intro kv hkv
          refine ihn (rank a) hra kv.2 ?_
          intro b hb
          refine hacyc a (.obj flds) hget kv.2 ?_ b hb
          simp only [HeapObj.edgeVals, HeapObj.childVals, List.mem_map]
          exact ⟨kv, hkv, rfl⟩
        obtain ⟨st, tr2, hrunF, hrenderF⟩ :=
          fieldsEquiv heap rank a (rank a) flds hflds (a :: visited)
            (by intro x hx
                rcases List.mem_cons.mp hx with rfl | hx
                · exact le_refl _
                · exact le_of_lt (lt_of_lt_of_le hra (hvis x hx)))
            fT (by omega)
        cases st with
        | error err =>
          refine ⟨.error err, ⟨parent, key, .ref a⟩ :: tr2, ?_, ?_⟩
          · rw [transform]
            simp only [idReplacer, hget, if_neg hmem, hrunF, removeFirst_cons_self]
          · intro fuelR stackD hfR hsD
            obtain ⟨fR, rfl⟩ : ∃ fR, fuelR = fR + 1 := ⟨fuelR - 1, by omega⟩
            have hmemD : a ∉ stackD := fun hx => absurd (hsD a hx) (by omega)
            obtain ⟨w', hw', hnc', hbr', -⟩ := hrenderF fR (a :: stackD)
              (by omega)
              (by intro x hx
                  rcases List.mem_cons.mp hx with rfl | hx
                  · exact le_refl _
                  · exact le_of_lt (lt_of_lt_of_le hra (hsD x hx)))
            obtain ⟨herr, hw'e⟩ := hbr' err rfl
            subst hw'e
            refine ⟨.error .bigIntError, ?_, by simp, ?_, ?_⟩
            · rw [RVal.ofVal, jsonEval]
              simp only [hget, if_neg hmemD, hw']
            · intro err2 herr2
              obtain rfl : err = err2 := by simpa using herr2
              exact ⟨herr, rfl⟩
            · intro t ht
              exact absurd ht (by simp)
        | ok ts =>
          refine ⟨.ok (.obj ts), ⟨parent, key, .ref a⟩ :: tr2, ?_, ?_⟩
          · rw [transform]
            simp only [idReplacer, hget, if_neg hmem, hrunF, removeFirst_cons_self]
          · intro fuelR stackD hfR hsD
            obtain ⟨fR, rfl⟩ : ∃ fR, fuelR = fR + 1 := ⟨fuelR - 1, by omega⟩
            have hmemD : a ∉ stackD := fun hx => absurd (hsD a hx) (by omega)
            obtain ⟨w', hw', hnc', -, hok'⟩ := hrenderF fR (a :: stackD)
              (by omega)
              (by intro x hx
                  rcases List.mem_cons.mp hx with rfl | hx
                  · exact le_refl _
                  · exact le_of_lt (lt_of_lt_of_le hra (hsD x hx)))
            cases w' with
            | error e' =>
              have he'ne : e' ≠ JSError.circularError := fun hh => hnc' (by rw [hh])
              refine ⟨.error e', ?_, by simpa using he'ne, ?_, ?_⟩
              · rw [RVal.ofVal, jsonEval]
                simp only [hget, if_neg hmemD, hw']
              · intro err2 herr2
                exact absurd herr2 (by simp)
              · intro t ht fuelL stackL hfL hsL
                obtain rfl : RVal.obj ts = t := by simpa using ht
                obtain ⟨fL, rfl⟩ : ∃ fL, fuelL = fL + 1 := ⟨fuelL - 1, by omega⟩
                have hlt := hok' ts rfl fL stackL (by omega)
                  (fun x hx => le_trans (le_of_lt hra) (hsL x hx))
                rw [jsonEval, hlt]
            | ok ts2 =>
              refine ⟨.ok (some (.obj ts2)), ?_, by simp, ?_, ?_⟩
              · rw [RVal.ofVal, jsonEval]
                simp only [hget, if_neg hmemD, hw']
              · intro err2 herr2
                exact absurd herr2 (by simp)
              · intro t ht fuelL stackL hfL hsL
                obtain rfl : RVal.obj ts = t := by simpa using ht
                obtain ⟨fL, rfl⟩ : ∃ fL, fuelL = fL + 1 := ⟨fuelL - 1, by omega⟩
                have hlt := hok' ts rfl fL stackL (by omega)
                  (fun x hx => le_trans (le_of_lt hra) (hsL x hx))
                rw [jsonEval, hlt]

/-- Claim C1, amended: on an acyclic input in which no serialization hook
returns a value that is itself a hook-bearing container, `asyncStringify`
with the identity replacer produces exactly the result of the reference
encoder `JSON.stringify(value, null, space)` on the same value — the same
rendered text, the same undefined result, or the same `TypeError` — for any
sufficient fuel. -/
theorem asyncStringify_identity_agrees (heap : Heap) (rank : Nat → Nat)
    (hacyc : AcyclicRank heap rank) (htame : TameHooks heap)
    (n : Nat) (v : JSVal) (hrb : RankBound rank v n) (space : Space)
    (fuel : Nat) (hfuel : n + 2 ≤ fuel) :
    asyncStringify heap idReplacer v space fuel = jsonStringify heap v space fuel := by
  obtain ⟨res, tr, hrun, hrender⟩ :=
    valEquiv heap rank hacyc htame n v hrb (.root v) "" [] (by simp) fuel (by omega)
  obtain ⟨w, hw, hnc, hbr, hok⟩ := hrender fuel [] hfuel (by simp)
  rw [asyncStringify, jsonStringify]
  cases res with
  | error err =>
    obtain ⟨herr, hwe⟩ := hbr err rfl
    subst herr
    subst hwe
    simp only [hrun, hw]
  | ok t =>
    have hlt := hok t rfl fuel [] hfuel (by simp)
    simp only [hrun, hlt, hw]


/-- Claim C1, counterexample: `hookChainHeap` is acyclic (ranks 2, 1, 0), yet
`asyncStringify` with the identity replacer renders the root as
`\x7b"a":42\x7d` — the engine inserts the raw hook result into the tree and
the final render applies its `toJSON` — while the reference encoder, which
applies `toJSON` only once per node, renders `\x7b"a":\x7b\x7d\x7d`. -/
theorem asyncStringify_identity_counterexample :
    AcyclicRank hookChainHeap (fun a => 2 - a) ∧
    asyncStringify hookChainHeap idReplacer (.ref 0) .absent 10 =
      some (.ok (some "\x7b\"a\":42\x7d")) ∧
    jsonStringify hookChainHeap (.ref 0) .absent 10 =
      some (.ok (some "\x7b\"a\":\x7b\x7d\x7d")) ∧
    asyncStringify hookChainHeap idReplacer (.ref 0) .absent 10 ≠
      jsonStringify hookChainHeap (.ref 0) .absent 10 := by
  have e1 : asyncStringify hookChainHeap idReplacer (.ref 0) .absent 10 =
      some (.ok (some "\x7b\"a\":42\x7d")) := by
    simp [asyncStringify, hookChainHeap, transform, transformFields, jsonEval,
      jsonEvalFields, renderTree, renderMembers, renderTop, gapOf, quoteJson,
      escapeChar, idReplacer, RVal.ofVal, removeFirst, String.intercalate,
      List.intersperse]
    decide
  have e2 : jsonStringify hookChainHeap (.ref 0) .absent 10 =
      some (.ok (some "\x7b\"a\":\x7b\x7d\x7d")) := by
    simp [jsonStringify, hookChainHeap, jsonEval, jsonEvalFields, renderTree,
      renderMembers, renderTop, gapOf, quoteJson, escapeChar, RVal.ofVal,
      String.intercalate, List.intersperse]
    decide
  refine ⟨?_, e1, e2, ?_⟩
  · intro a o hget w hw b hwb
    match a, hget with
    | 0, hget =>
      obtain rfl : HeapObj.obj [("a", .ref 1)] = o := by
        simpa [hookChainHeap] using hget
      simp only [HeapObj.edgeVals, HeapObj.childVals, List.map_cons,
        List.map_nil, List.mem_singleton] at hw
      subst hw
      obtain rfl : b = 1 := by simpa using hwb.symm
      norm_num
    | 1, hget =>
      obtain rfl : HeapObj.hook (.ref 2) = o := by
        simpa [hookChainHeap] using hget
      simp only [HeapObj.edgeVals, List.mem_singleton] at hw
      subst hw
      obtain rfl : b = 2 := by simpa using hwb.symm
      norm_num
    | 2, hget =>
      obtain rfl : HeapObj.hook (.num 42) = o := by
        simpa [hookChainHeap] using hget
      simp only [HeapObj.edgeVals, List.mem_singleton] at hw
      subst hw
      exact absurd hwb (by simp)
  · rw [e1, e2]
    intro hcon
    simp only [Option.some.injEq, Except.ok.injEq] at hcon
    exact absurd hcon (by decide)

/-- Witness for the amended claim C1 on an acyclic heap whose hook returns a
plain (hook-free) container: both pipelines render `\x7b"a":\x7b"x":7\x7d\x7d`. -/
theorem asyncStringify_identity_agrees_witness :
    asyncStringify [.obj [("a", .ref 1)], .hook (.ref 2), .obj [("x", .num 7)]]
      idReplacer (.ref 0) .absent 10 =
    jsonStringify [.obj [("a", .ref 1)], .hook (.ref 2), .obj [("x", .num 7)]]
      (.ref 0) .absent 10 := by
  refine asyncStringify_identity_agrees _ (fun a => 2 - a) ?_ ?_ 3 (.ref 0) ?_
    .absent 10 (by norm_num)
  · intro a o hget w hw b hwb
    match a, hget with
    | 0, hget =>
      obtain rfl : HeapObj.obj [("a", .ref 1)] = o := by simpa using hget
      simp only [HeapObj.edgeVals, HeapObj.childVals, List.map_cons,
        List.map_nil, List.mem_singleton] at hw
      subst hw
      obtain rfl : b = 1 := by simpa using hwb.symm
      norm_num
    | 1, hget =>
      obtain rfl : HeapObj.hook (.ref 2) = o := by simpa using hget
      simp only [HeapObj.edgeVals, List.mem_singleton] at hw
      subst hw
      obtain rfl : b = 2 := by simpa using hwb.symm
      norm_num
    | 2, hget =>
      obtain rfl : HeapObj.obj [("x", .num 7)] = o := by simpa using hget
      subst hwb
      simp [HeapObj.edgeVals, HeapObj.childVals] at hw
  · intro a r hget b hrb r2
    match a, hget with
    | 0, hget => exact absurd hget (by simp)
    | 1, hget =>
      have heq : HeapObj.hook (.ref 2) = HeapObj.hook r := by simpa using hget
      obtain rfl : JSVal.ref 2 = r := by simpa using heq
      obtain rfl : b = 2 := by simpa using hrb.symm
      simp
    | 2, hget => exact absurd hget (by simp)
  · intro b hb
    obtain rfl : b = 0 := by simpa using hb.symm
    norm_num
